import Mathlib

/-!
Verification of the d3-org-chart-ts library (src/unnamed/part_001) against its
natural-language specification.  The data model is a rose tree of records; the
visibility-resolution pass of `setLayouts` (lines 2067-2177) is embedded as a
fold over a pre-order enumeration of visit items, with the mutable
`hiddenNodesMap`, `_pagingButton` and `_expanded` fields represented as an
explicit state of boolean maps keyed by node id.
-/

/-- The per-record fields of a chart datum that the visibility pass reads or
writes: `_expanded`, `_centered`, `_highlighted`, `_upToTheRootHighlighted`,
`_pagingButton` and `_pagingStep` (0 encodes the JS falsy "unset" value). -/
structure NodeData where
  id : Nat
  expanded : Bool
  centered : Bool
  highlighted : Bool
  upRoot : Bool
  pagingButton : Bool
  pagingStep : Nat
deriving DecidableEq

/-- The hierarchy produced by `d3.stratify` over the flat data array: a rose
tree of records.  Children order is the input order. -/
inductive OTree where
  | node (data : NodeData) (children : List OTree)

def OTree.dataOf : OTree → NodeData
  | .node d _ => d

def OTree.kidsOf : OTree → List OTree
  | .node _ cs => cs

def rootId (t : OTree) : Nat := t.dataOf.id

mutual
/-- All ids of a tree, root first, pre-order. -/
def allIds : OTree → List Nat
  | .node d cs => d.id :: allIdsL cs

def allIdsL : List OTree → List Nat
  | [] => []
  | c :: cs => allIds c ++ allIdsL cs
end

mutual
/-- All record data of a tree, root first, pre-order. -/
def allDatas : OTree → List NodeData
  | .node d cs => d :: allDatasL cs

def allDatasL : List OTree → List NodeData
  | [] => []
  | c :: cs => allDatas c ++ allDatasL cs
end

/-!
## The visibility pass of `setLayouts` (part_001 lines 2090-2130)

The JS mutates, keyed by node id: `hiddenNodesMap`, each record's
`_pagingButton` and `_expanded`.  We carry these as explicit boolean maps. -/

structure LayoutState where
  hidden : Nat → Bool
  pagingButton : Nat → Bool
  expanded : Nat → Bool

/-- Point update of a boolean map. -/
def setF (f : Nat → Bool) (k : Nat) (v : Bool) : Nat → Bool :=
  fun n => if n = k then v else f n

/-- The re-surfacing `while` loop of lines 2115-2126: walk from a node up to
the root while the current node is hidden or is a paging button; on each step
clear its hidden flag, and if it was a paging button additionally clear the
button and mark all of its parent's children expanded and un-hidden.  A frame
is the pair (node id, ids of the children of the node's parent); the root's
sibling list is empty (the JS optional chaining skips it). -/
def unhideLoop : List (Nat × List Nat) → LayoutState → LayoutState
  | [], st => st
  | (nid, sibs) :: rest, st =>
    if st.hidden nid || st.pagingButton nid then
      let st1 : LayoutState := { st with hidden := setF st.hidden nid false }
      let st2 : LayoutState :=
        if st.pagingButton nid then
          { st1 with
            pagingButton := setF st1.pagingButton nid false,
            expanded := fun n => if n ∈ sibs then true else st1.expanded n,
            hidden := fun n => if n ∈ sibs then false else st1.hidden n }
        else st1
      unhideLoop rest st2
    else st

/-- Lines 2103-2127, the body run for the child of index `j` of a node with
id `pid`, paging cursor `pstep` and `numCh` children: reset the child's
`_pagingButton`, hide it when `j > pstep`, turn it into the paging button when
`j = pstep` and further children exist, inherit hidden-ness from the parent,
and finally re-surface it when any of its four visibility flags is on
(`_expanded` read from the mutable state, the other three never change during
the pass). -/
def childStep (pid pstep numCh : Nat) (sibIds : List Nat)
    (ctx : List (Nat × List Nat)) (j : Nat) (c : NodeData) (st : LayoutState) :
    LayoutState :=
  let st1 : LayoutState := { st with pagingButton := setF st.pagingButton c.id false }
  let st2 : LayoutState :=
    if pstep < j then { st1 with hidden := setF st1.hidden c.id true } else st1
  let st3 : LayoutState :=
    if j = pstep ∧ pstep < numCh - 1 then
      { st2 with pagingButton := setF st2.pagingButton c.id true } else st2
  let st4 : LayoutState :=
    if st3.hidden pid then { st3 with hidden := setF st3.hidden c.id true } else st3
  if st4.expanded c.id || c.centered || c.highlighted || c.upRoot then
    unhideLoop ((c.id, sibIds) :: ctx) st4
  else st4

/-- The `forEach` over a node's children, starting at index `j`. -/
def childrenLoop (pid pstep numCh : Nat) (sibIds : List Nat)
    (ctx : List (Nat × List Nat)) : Nat → List NodeData → LayoutState → LayoutState
  | _, [], st => st
  | j, c :: rest, st =>
      childrenLoop pid pstep numCh sibIds ctx (j + 1) rest
        (childStep pid pstep numCh sibIds ctx j c st)

/-- One `eachBefore` visit: the visited node's id and paging cursor, the data
of its children, and the ancestor context (the node's own frame first). -/
structure VisitItem where
  pid : Nat
  pstep : Nat
  kids : List NodeData
  ctx : List (Nat × List Nat)

/-- The data of the root of each tree in a forest (a node's direct children
as seen by the children loop). -/
def allDatasRoots (cs : List OTree) : List NodeData := cs.map (·.dataOf)

mutual
/-- Pre-order enumeration of the visits performed by
`attrs.root.eachBefore` (line 2100).  `ctx` is the visited node's own frame
followed by its ancestors' frames. -/
def preorder (ctx : List (Nat × List Nat)) : OTree → List VisitItem
  | .node d cs =>
      ⟨d.id, d.pagingStep, allDatasRoots cs, ctx⟩ ::
        preorderL ((allDatasRoots cs).map (·.id)) ctx cs

def preorderL (cids : List Nat) (ctx : List (Nat × List Nat)) :
    List OTree → List VisitItem
  | [] => []
  | c :: cs =>
      preorder ((c.dataOf.id, cids) :: ctx) c ++ preorderL cids ctx cs
end

/-- Run the children loop of one visit item. -/
def runItem (st : LayoutState) (it : VisitItem) : LayoutState :=
  childrenLoop it.pid it.pstep it.kids.length (it.kids.map (·.id)) it.ctx 0 it.kids st

/-- Initial state of a pass: nothing hidden, `_pagingButton` and `_expanded`
taken from the records of the data array. -/
def initState (t : OTree) : LayoutState where
  hidden := fun _ => false
  pagingButton := fun n => (((allDatas t).find? (fun d => d.id = n)).map (·.pagingButton)).getD false
  expanded := fun n => (((allDatas t).find? (fun d => d.id = n)).map (·.expanded)).getD false

/-- The full visibility pass of `setLayouts`: fold the children loop over the
pre-order visits.  Its `hidden` component is the final `hiddenNodesMap` used
to filter the data before re-stratifying (line 2136). -/
def computeHidden (t : OTree) : LayoutState :=
  (preorder [(rootId t, [])] t).foldl runItem (initState t)

mutual
/-- Lines 2091-2096: every node that has children and whose `_pagingStep` is
still falsy (0) gets `_pagingStep := minPagingVisibleNodes` (the accessor is
modelled as the constant `m`). -/
def initPaging (m : Nat) : OTree → OTree
  | .node d cs =>
      .node (if cs.length ≠ 0 ∧ d.pagingStep = 0 then { d with pagingStep := m } else d)
        (initPagingL m cs)

def initPagingL (m : Nat) : List OTree → List OTree
  | [] => []
  | c :: cs => initPaging m c :: initPagingL m cs
end

/-- A childless record with the given id and every flag off. -/
def leafD (i : Nat) : NodeData :=
  { id := i, expanded := false, centered := false, highlighted := false,
    upRoot := false, pagingButton := false, pagingStep := 0 }

/-- A leaf node. -/
def leafK (i : Nat) : OTree := .node (leafD i) []

/-- A root (id 0, paging cursor `c`) with `n` leaf children of ids 1..n:
the one-level tree of the paging scenarios. -/
def fan (c n : Nat) : OTree :=
  .node { leafD 0 with pagingStep := c } ((List.range n).map fun j => leafK (j + 1))

/-!
## Link path generators (`hdiagonal` lines 565-607, `diagonal` lines 609-646)

Only the corner-radius computation is relevant to the claims; coordinates are
modelled as rationals. -/

structure Pt where
  x : ℚ
  y : ℚ

/-- The corner radius computed by `hdiagonal` (lines 580-586): start from the
preferred radius 35, reduce it to half the x-span if that is smaller, then to
half the y-span if that is smaller still. -/
def hdiagonalRadius (s t : Pt) : ℚ :=
  let rdef : ℚ := 35
  let r := if |t.x - s.x| / 2 < rdef then |t.x - s.x| / 2 else rdef
  if |t.y - s.y| / 2 < r then |t.y - s.y| / 2 else r

/-- The corner radius computed by `diagonal` (lines 622-628): the source y is
first shifted by the `offsets.sy` offset (line 622). -/
def diagonalRadius (s t : Pt) (sy : ℚ) : ℚ :=
  let y := s.y + sy
  let rdef : ℚ := 35
  let r := if |t.x - s.x| / 2 < rdef then |t.x - s.x| / 2 else rdef
  if |t.y - y| / 2 < r then |t.y - y| / 2 else r

/-!
## `loadPagingNodes` (lines 2257-2265)

Clears the clicked button node's `_pagingButton` and advances the parent's
`_pagingStep` by the configured `pagingStep` accessor value (modelled as the
constant `step`); there is no clamping. -/

def loadPagingNodes (step : Nat) (node parentD : NodeData) : NodeData × NodeData :=
  ({ node with pagingButton := false },
   { parentD with pagingStep := parentD.pagingStep + step })

/-!
## Runtime node operations (`removeNode`, `setCentered`, `setHighlighted`,
`setUpToTheRootHighlighted`, lines 1369-1398 and 2289-2338)

Each first looks the id up among the descendants of the root built from the
data array; an unknown id is a logged no-op.  On the flat data array the
found branches mark records; on the tree model they are structural maps. -/

mutual
/-- `removeNode` (lines 1369-1398): remove the matching node and all of its
descendants from the data array; removing the root empties the data
(`none`); an unknown id leaves the data unchanged. -/
def removeNode (i : Nat) : OTree → Option OTree
  | .node d cs =>
      if d.id = i then none
      else some (.node d (removeNodeL i cs))

def removeNodeL (i : Nat) : List OTree → List OTree
  | [] => []
  | c :: cs =>
      match removeNode i c with
      | none => removeNodeL i cs
      | some c2 => c2 :: removeNodeL i cs
end

mutual
/-- `setCentered` (lines 2289-2304): mark every ancestor of the matching node
`_expanded` and the node itself `_centered` and `_expanded`; the boolean
reports whether the id was found in the subtree. -/
def setCenteredGo (i : Nat) : OTree → OTree × Bool
  | .node d cs =>
      let r := setCenteredGoL i cs
      if d.id = i then
        (.node { d with centered := true, expanded := true } r.1, true)
      else if r.2 then (.node { d with expanded := true } r.1, true)
      else (.node d r.1, false)

def setCenteredGoL (i : Nat) : List OTree → List OTree × Bool
  | [] => ([], false)
  | c :: cs =>
      let a := setCenteredGo i c
      let b := setCenteredGoL i cs
      (a.1 :: b.1, a.2 || b.2)
end

def setCentered (i : Nat) (t : OTree) : OTree := (setCenteredGo i t).1

mutual
/-- `setHighlighted` (lines 2306-2321): ancestors get `_expanded`; the node
itself gets `_highlighted`, `_expanded` and `_centered`. -/
def setHighlightedGo (i : Nat) : OTree → OTree × Bool
  | .node d cs =>
      let r := setHighlightedGoL i cs
      if d.id = i then
        (.node { d with highlighted := true, expanded := true, centered := true } r.1, true)
      else if r.2 then (.node { d with expanded := true } r.1, true)
      else (.node d r.1, false)

def setHighlightedGoL (i : Nat) : List OTree → List OTree × Bool
  | [] => ([], false)
  | c :: cs =>
      let a := setHighlightedGo i c
      let b := setHighlightedGoL i cs
      (a.1 :: b.1, a.2 || b.2)
end

def setHighlighted (i : Nat) (t : OTree) : OTree := (setHighlightedGo i t).1

mutual
/-- `setUpToTheRootHighlighted` (lines 2323-2338): the matching node and every
ancestor up to the root get both `_expanded` and `_upToTheRootHighlighted`. -/
def setUpToTheRootGo (i : Nat) : OTree → OTree × Bool
  | .node d cs =>
      let r := setUpToTheRootGoL i cs
      if d.id = i ∨ r.2 = true then
        (.node { d with expanded := true, upRoot := true } r.1, true)
      else (.node d r.1, false)

def setUpToTheRootGoL (i : Nat) : List OTree → List OTree × Bool
  | [] => ([], false)
  | c :: cs =>
      let a := setUpToTheRootGo i c
      let b := setUpToTheRootGoL i cs
      (a.1 :: b.1, a.2 || b.2)
end

def setUpToTheRootHighlighted (i : Nat) (t : OTree) : OTree := (setUpToTheRootGo i t).1

/-!
## Theorems
-/

theorem iteLtEqMin (a b : ℚ) : (if a < b then a else b) = min a b := by
  by_cases h : a < b
  · simp [h, min_eq_left h.le]
  · simp [h, min_eq_right (le_of_not_lt h)]

/-- C4: for every source point s and target point t, `hdiagonal` and
`diagonal` compute the corner radius min(35, |Δx|/2, |Δy|/2) (for `diagonal`
with the source y first shifted by the `sy` offset), and whenever the two
endpoints coincide on the x axis the radius degenerates to 0. -/
theorem c4_diagonal_radius (s t : Pt) (sy : ℚ) :
    hdiagonalRadius s t = min 35 (min (|t.x - s.x| / 2) (|t.y - s.y| / 2)) ∧
    diagonalRadius s t sy = min 35 (min (|t.x - s.x| / 2) (|t.y - (s.y + sy)| / 2)) ∧
    (t.x = s.x → hdiagonalRadius s t = 0 ∧ diagonalRadius s t sy = 0) := by
  have h1 : hdiagonalRadius s t
      = min 35 (min (|t.x - s.x| / 2) (|t.y - s.y| / 2)) := by
    rw [hdiagonalRadius, iteLtEqMin, iteLtEqMin]
    rw [min_comm (|t.x - s.x| / 2) 35, min_comm (|t.y - s.y| / 2) _, ← min_assoc]
  have h2 : diagonalRadius s t sy
      = min 35 (min (|t.x - s.x| / 2) (|t.y - (s.y + sy)| / 2)) := by
    rw [diagonalRadius, iteLtEqMin, iteLtEqMin]
    rw [min_comm (|t.x - s.x| / 2) 35, min_comm (|t.y - (s.y + sy)| / 2) _, ← min_assoc]
  refine ⟨h1, h2, fun hx => ⟨?_, ?_⟩⟩
  · rw [h1, hx]
    have hy : (0:ℚ) ≤ |t.y - s.y| / 2 := by positivity
    rw [sub_self, abs_zero, zero_div, min_eq_left hy,
      min_eq_right (by norm_num : (0:ℚ) ≤ 35)]
  · rw [h2, hx]
    have hy : (0:ℚ) ≤ |t.y - (s.y + sy)| / 2 := by positivity
    rw [sub_self, abs_zero, zero_div, min_eq_left hy,
      min_eq_right (by norm_num : (0:ℚ) ≤ 35)]

/-- Witness for `c4_diagonal_radius` at a concrete degenerate input. -/
theorem c4_diagonal_radius_witness :
    (Pt.mk 3 7).x = (Pt.mk 3 1).x ∧ hdiagonalRadius (Pt.mk 3 1) (Pt.mk 3 7) = 0 :=
  ⟨rfl, ((c4_diagonal_radius (Pt.mk 3 1) (Pt.mk 3 7) 0).2.2 rfl).1⟩

/-- C2 (amended): the paging cursor advances by exactly the configured step on
every `loadPagingNodes` call, hence is non-decreasing (strictly increasing for
a positive step); it is not clamped to the child count. -/
theorem c2_paging_cursor_monotone (step : Nat) (node parentD : NodeData) :
    (loadPagingNodes step node parentD).2.pagingStep = parentD.pagingStep + step ∧
    parentD.pagingStep ≤ (loadPagingNodes step node parentD).2.pagingStep ∧
    (0 < step → parentD.pagingStep < (loadPagingNodes step node parentD).2.pagingStep) :=
  ⟨rfl, Nat.le_add_right _ _, fun h => Nat.lt_add_of_pos_right h⟩

/-- Witness for `c2_paging_cursor_monotone` at the default step 5. -/
theorem c2_paging_cursor_monotone_witness :
    0 < 5 ∧ (fan 3 3).dataOf.pagingStep
      < (loadPagingNodes 5 (leafD 9) (fan 3 3).dataOf).2.pagingStep :=
  ⟨by decide, (c2_paging_cursor_monotone 5 (leafD 9) (fan 3 3).dataOf).2.2 (by decide)⟩

/-- C2 counterexample: a node with 3 children whose cursor is 3; one
`loadPagingNodes` call with the default step 5 drives the cursor to 8, which
exceeds the child count 3 — the claimed bound "never exceeds that node's
child count" fails. -/
theorem c2_counterexample :
    (loadPagingNodes 5 (leafD 9) (fan 3 3).dataOf).2.pagingStep = 8 ∧
    (fan 3 3).kidsOf.length = 3 ∧ ¬ (8 ≤ 3) := by decide

mutual
theorem removeNode_notMem : ∀ (i : Nat) (t : OTree), i ∉ allIds t → removeNode i t = some t
  | i, .node d cs, h => by
      have hd : ¬ (d.id = i) := fun e => h (by simp [allIds, e])
      have hcs : i ∉ allIdsL cs := fun hm => h (by simp [allIds, hm])
      simp [removeNode, hd, removeNodeL_notMem i cs hcs]

theorem removeNodeL_notMem : ∀ (i : Nat) (cs : List OTree), i ∉ allIdsL cs → removeNodeL i cs = cs
  | _, [], _ => rfl
  | i, c :: cs, h => by
      have h1 : i ∉ allIds c := fun hm => h (by simp [allIdsL, hm])
      have h2 : i ∉ allIdsL cs := fun hm => h (by simp [allIdsL, hm])
      simp [removeNodeL, removeNode_notMem i c h1, removeNodeL_notMem i cs h2]
end

mutual
theorem setCenteredGo_notMem : ∀ (i : Nat) (t : OTree), i ∉ allIds t → setCenteredGo i t = (t, false)
  | i, .node d cs, h => by
      have hd : ¬ (d.id = i) := fun e => h (by simp [allIds, e])
      have hcs : i ∉ allIdsL cs := fun hm => h (by simp [allIds, hm])
      simp [setCenteredGo, hd, setCenteredGoL_notMem i cs hcs]

theorem setCenteredGoL_notMem : ∀ (i : Nat) (cs : List OTree), i ∉ allIdsL cs → setCenteredGoL i cs = (cs, false)
  | _, [], _ => rfl
  | i, c :: cs, h => by
      have h1 : i ∉ allIds c := fun hm => h (by simp [allIdsL, hm])
      have h2 : i ∉ allIdsL cs := fun hm => h (by simp [allIdsL, hm])
      simp [setCenteredGoL, setCenteredGo_notMem i c h1, setCenteredGoL_notMem i cs h2]
end

mutual
theorem setHighlightedGo_notMem : ∀ (i : Nat) (t : OTree), i ∉ allIds t → setHighlightedGo i t = (t, false)
  | i, .node d cs, h => by
      have hd : ¬ (d.id = i) := fun e => h (by simp [allIds, e])
      have hcs : i ∉ allIdsL cs := fun hm => h (by simp [allIds, hm])
      simp [setHighlightedGo, hd, setHighlightedGoL_notMem i cs hcs]

theorem setHighlightedGoL_notMem : ∀ (i : Nat) (cs : List OTree), i ∉ allIdsL cs → setHighlightedGoL i cs = (cs, false)
  | _, [], _ => rfl
  | i, c :: cs, h => by
      have h1 : i ∉ allIds c := fun hm => h (by simp [allIdsL, hm])
      have h2 : i ∉ allIdsL cs := fun hm => h (by simp [allIdsL, hm])
      simp [setHighlightedGoL, setHighlightedGo_notMem i c h1, setHighlightedGoL_notMem i cs h2]
end

/-- C7: for an id that matches no record of the data, `removeNode`,
`setCentered` and `setHighlighted` are non-throwing no-ops: the data and every
record's flags are left unchanged (the condition is only logged). -/
theorem c7_unknown_id_noops (t : OTree) (i : Nat) (h : i ∉ allIds t) :
    removeNode i t = some t ∧ setCentered i t = t ∧ setHighlighted i t = t :=
  ⟨removeNode_notMem i t h,
   by rw [setCentered, setCenteredGo_notMem i t h],
   by rw [setHighlighted, setHighlightedGo_notMem i t h]⟩

/-- Witness for `c7_unknown_id_noops`: id 77 is absent from a concrete
two-level tree. -/
theorem c7_unknown_id_noops_witness :
    (77 ∉ allIds (fan 2 3)) ∧
    (removeNode 77 (fan 2 3) = some (fan 2 3) ∧ setCentered 77 (fan 2 3) = fan 2 3 ∧
      setHighlighted 77 (fan 2 3) = fan 2 3) :=
  ⟨by decide, c7_unknown_id_noops (fan 2 3) 77 (by decide)⟩

/-!
## Compact layout (`calculateCompactFlexDimensions` lines 1420-1459,
`calculateCompactFlexPositions` lines 1461-1494)
-/

/-- The fields of a child node read by the compact packing: whether it is
childless (compactable) and its column/row dimensions as produced by the
layout binding's `compactDimension` accessors. -/
structure CNode where
  id : Nat
  leaf : Bool
  sizeColumn : ℚ
  sizeRow : ℚ
deriving DecidableEq

/-- `d3.max(...) || 0` as used at lines 1440-1441. -/
def d3maxQ (l : List ℚ) : ℚ := (l.max?).getD 0

/-- The `groupBy` of line 1443 groups the ordered compact children by
`row = floor(i/2)`; JS objects enumerate integer-like keys in ascending
numeric order, so the groups are the consecutive pairs of the list. -/
def chunk2 : List α → List (List α)
  | [] => []
  | [a] => [[a]]
  | a :: b :: rest => [a, b] :: chunk2 rest

/-- `calculateCompactFlexDimensions` for one parent node: the
`flexCompactDim` footprint assigned to each compactable (childless) child, in
order.  `pair` and `between` model the `compactMarginPair` and
`compactMarginBetween` accessors (constant functions by default).  When the
packing is skipped (at most one child, or fewer than two compactable
children) no footprint is assigned ([]). -/
def calculateCompactFlexDimensions (pair between : ℚ) (children : List CNode) :
    List (ℚ × ℚ) :=
  if 1 < children.length then
    let compactChildren := children.filter (·.leaf)
    if compactChildren.length < 2 then []
    else
      let withIdx := compactChildren.enum
      let evenMaxColumnDimension :=
        d3maxQ ((withIdx.filter (fun p => p.1 % 2 = 0)).map (fun p => p.2.sizeColumn))
      let oddMaxColumnDimension :=
        d3maxQ ((withIdx.filter (fun p => ¬ p.1 % 2 = 0)).map (fun p => p.2.sizeColumn))
      let columnSize := max evenMaxColumnDimension oddMaxColumnDimension * 2
      let rowsMapNew :=
        (chunk2 compactChildren).map (fun g => d3maxQ (g.map (fun d => d.sizeRow + between)))
      let rowSize := rowsMapNew.sum
      withIdx.map (fun p =>
        if p.1 = 0 then (columnSize + pair, rowSize - between) else (0, 0))
  else []

/-- Elements at even positions (column 0 of the compact packing). -/
def evens : List α → List α
  | [] => []
  | [a] => [a]
  | a :: _ :: rest => a :: evens rest

/-- Elements at odd positions (column 1 of the compact packing). -/
def odds : List α → List α
  | [] => []
  | [_] => []
  | _ :: b :: rest => b :: odds rest

theorem enumFrom_filter_parity : ∀ (l : List CNode) (n : Nat), n % 2 = 0 →
    ((List.enumFrom n l).filter (fun p => p.1 % 2 = 0)).map Prod.snd = evens l ∧
    ((List.enumFrom n l).filter (fun p => p.1 % 2 = 1)).map Prod.snd = odds l
  | [], _, _ => ⟨rfl, rfl⟩
  | [a], n, hn => by
      have hn1 : ¬ (n % 2 = 1) := by omega
      simp [List.enumFrom, List.filter, evens, odds, hn, hn1]
  | a :: b :: rest, n, hn => by
      have hn1 : ¬ ((n + 1) % 2 = 0) := by omega
      have hn1b : (n + 1) % 2 = 1 := by omega
      have hn0b : ¬ (n % 2 = 1) := by omega
      have hn2 : (n + 2) % 2 = 0 := by omega
      have ih := enumFrom_filter_parity rest (n + 2) hn2
      simp [List.enumFrom_cons, List.filter, hn, hn1, hn1b, hn0b, evens, odds, ih.1, ih.2]

theorem enum_filter_evens (l : List CNode) :
    (l.enum.filter (fun p => p.1 % 2 = 0)).map Prod.snd = evens l :=
  (enumFrom_filter_parity l 0 rfl).1

theorem enum_filter_odds (l : List CNode) :
    (l.enum.filter (fun p => p.1 % 2 = 1)).map Prod.snd = odds l :=
  (enumFrom_filter_parity l 0 rfl).2

/-- C5: for every node with at least two childless (compactable) children,
`calculateCompactFlexDimensions` assigns the first compactable child the
footprint [2 * max(max column-0 width, max column-1 width) + pair,
(sum over rows of the row maximum of (row height + between)) - between] and
every other compactable child the zero footprint. -/
theorem c5_compact_footprint (pair between : ℚ) (children : List CNode)
    (h2 : 2 ≤ (children.filter (·.leaf)).length) :
    (calculateCompactFlexDimensions pair between children).head? = some
      (2 * max (d3maxQ ((evens (children.filter (·.leaf))).map (·.sizeColumn)))
               (d3maxQ ((odds (children.filter (·.leaf))).map (·.sizeColumn))) + pair,
       ((chunk2 (children.filter (·.leaf))).map
          (fun g => d3maxQ (g.map (fun d => d.sizeRow + between)))).sum - between) ∧
    (∀ j, 0 < j → j < (children.filter (·.leaf)).length →
      (calculateCompactFlexDimensions pair between children)[j]? = some (0, 0)) := by
  have hlen : 1 < children.length := by
    have := List.length_filter_le (fun c : CNode => c.leaf) children
    omega
  have hnotlt : ¬ ((children.filter (·.leaf)).length < 2) := by omega
  have he : ((children.filter (·.leaf)).enum.filter (fun p => p.1 % 2 = 0)).map
      (fun p : Nat × CNode => p.2.sizeColumn)
      = (evens (children.filter (·.leaf))).map (·.sizeColumn) := by
    rw [← enum_filter_evens (children.filter (·.leaf)), List.map_map]; rfl
  have ho : ((children.filter (·.leaf)).enum.filter (fun p => ¬ p.1 % 2 = 0)).map
      (fun p : Nat × CNode => p.2.sizeColumn)
      = (odds (children.filter (·.leaf))).map (·.sizeColumn) := by
    rw [← enum_filter_odds (children.filter (·.leaf)), List.map_map]
    congr 1
    apply List.filter_congr
    intro p _
    simp only [decide_eq_decide]
    omega
  constructor
  · obtain ⟨c0, rest, hrest⟩ : ∃ c0 rest, children.filter (·.leaf) = c0 :: rest := by
      match hcc : children.filter (·.leaf) with
      | [] => rw [hcc] at h2; simp at h2
      | c0 :: rest => exact ⟨c0, rest, hcc⟩
    rw [calculateCompactFlexDimensions]
    simp only [if_pos hlen, if_neg hnotlt]
    rw [List.head?_map]
    have hh : (children.filter (·.leaf)).enum.head? = some (0, c0) := by
      rw [hrest, List.enum_cons]; rfl
    rw [hh, Option.map_some']
    simp only [↓reduceIte]
    rw [he, ho, mul_comm]
  · intro j hj hjlen
    rw [calculateCompactFlexDimensions]
    simp only [if_pos hlen, if_neg hnotlt]
    rw [List.getElem?_map, List.getElem?_enum,
      List.getElem?_eq_getElem hjlen]
    simp [Nat.pos_iff_ne_zero.mp hj]

/-- Witness for `c5_compact_footprint` on two compactable children of
distinct sizes. -/
theorem c5_compact_footprint_witness :
    (2 ≤ (([⟨1, true, 3, 4⟩, ⟨2, true, 5, 6⟩] : List CNode).filter (·.leaf)).length) ∧
    (calculateCompactFlexDimensions 100 40 [⟨1, true, 3, 4⟩, ⟨2, true, 5, 6⟩]).head?
      = some (2 * max (d3maxQ [3]) (d3maxQ [5]) + 100,
          ([d3maxQ [4 + 40, 6 + 40]] : List ℚ).sum - 40) := by
  refine ⟨by decide, ?_⟩
  have h := (c5_compact_footprint 100 40 [⟨1, true, 3, 4⟩, ⟨2, true, 5, 6⟩] (by decide)).1
  simpa [evens, odds, chunk2] using h

/-- The x-placement step of `calculateCompactFlexPositions` (lines 1468-1479)
for one parent: `x0` is the first compact child's x before the shift, `D` the
assigned footprint width `flexCompactDim[0]`, `pair` the `compactMarginPair`
value, `n` the number of compact children.  The first child's x is shifted
left by `D/2`; even-indexed children take the left column, odd-indexed the
right column; the group's center `centerX` is recorded, the first child takes
the left-column x, and then the recentering offset `offsetX = parentX -
centerX` is added to every compact child's x iff `|offsetX| < 10`. -/
def calculateCompactFlexPositions (parentX x0 D pair : ℚ) (n : Nat) : List ℚ :=
  let fx := x0 - D / 2
  let base := (List.range n).map fun i =>
    if i = 0 then fx + D * (1/4) - pair / 4
    else if i % 2 = 1 then fx + D * (3/4) + pair / 4
    else fx + D * (1/4) - pair / 4
  let centerX := fx + D * (1/2)
  let offsetX := parentX - centerX
  if |offsetX| < 10 then base.map (fun x => x + offsetX) else base

/-- The column position of the compact child of index `j` before
recentering. -/
def compactColumnX (x0 D pair : ℚ) (j : Nat) : ℚ :=
  if j % 2 = 1 then x0 - D / 2 + D * (3/4) + pair / 4
  else x0 - D / 2 + D * (1/4) - pair / 4

theorem compactCenter (x0 D : ℚ) : x0 - D / 2 + D * (1/2) = x0 := by ring

/-- C6: in `calculateCompactFlexPositions` the recentering offset
`offsetX = parent.x - groupCenterX` (with `groupCenterX = x0`, the first
compact child's original x) is added to every compact child's x iff
`|offsetX| < 10`; when `|offsetX| ≥ 10` the x positions are left unchanged by
the recentering step. -/
theorem c6_recentering_threshold (parentX x0 D pair : ℚ) (n j : Nat) (hj : j < n) :
    (|parentX - x0| < 10 →
      (calculateCompactFlexPositions parentX x0 D pair n)[j]? =
        some (compactColumnX x0 D pair j + (parentX - x0))) ∧
    (¬ |parentX - x0| < 10 →
      (calculateCompactFlexPositions parentX x0 D pair n)[j]? =
        some (compactColumnX x0 D pair j)) := by
  rw [calculateCompactFlexPositions]
  simp only [compactCenter]
  constructor
  · intro h
    rw [if_pos h, List.map_map, List.getElem?_map, List.getElem?_range hj,
      Option.map_some']
    rcases Nat.eq_zero_or_pos j with h0 | h0
    · subst h0; simp [compactColumnX, Function.comp]
    · rcases Nat.even_or_odd j with he | ho
      · have h1 : j % 2 = 0 := Nat.even_iff.mp he
        simp [compactColumnX, Nat.pos_iff_ne_zero.mp h0, h1, Function.comp]
      · have h1 : j % 2 = 1 := Nat.odd_iff.mp ho
        simp [compactColumnX, Nat.pos_iff_ne_zero.mp h0, h1, Function.comp]
  · intro h
    rw [if_neg h, List.getElem?_map, List.getElem?_range hj, Option.map_some']
    rcases Nat.eq_zero_or_pos j with h0 | h0
    · subst h0; simp [compactColumnX]
    · rcases Nat.even_or_odd j with he | ho
      · have h1 : j % 2 = 0 := Nat.even_iff.mp he
        simp [compactColumnX, Nat.pos_iff_ne_zero.mp h0, h1]
      · have h1 : j % 2 = 1 := Nat.odd_iff.mp ho
        simp [compactColumnX, Nat.pos_iff_ne_zero.mp h0, h1]

/-- Witness for `c6_recentering_threshold`: 3 compact children, drift 4
(below threshold, applied) at index 1. -/
theorem c6_recentering_threshold_witness :
    (1 < 3) ∧ |(14:ℚ) - 10| < 10 ∧
    (calculateCompactFlexPositions 14 10 8 2 3)[1]? =
      some (compactColumnX 10 8 2 1 + (14 - 10)) := by
  refine ⟨by decide, by norm_num, ?_⟩
  exact (c6_recentering_threshold 14 10 8 2 3 1 (by decide)).1 (by norm_num)

/-!
## The d3 hierarchy with collapse state (`children` / `_children`)

`collapse` (2180-2187), `expand` (2190-2197), `onButtonClick` (1968-2004),
`setExpansionFlagToChildren` (2007-2024), `expandSomeNodes` (2028-2053) and
the expand/collapse phase of `setLayouts` (2158-2176).  A field holds `none`
for the JS `undefined` and `some l` for an array. -/

inductive HNode where
  | node (id : Nat) (expanded : Bool)
      (ch : Option (List HNode)) (hch : Option (List HNode))

def HNode.idOf : HNode → Nat
  | .node i _ _ _ => i

def HNode.chOf : HNode → Option (List HNode)
  | .node _ _ ch _ => ch

def HNode.hchOf : HNode → Option (List HNode)
  | .node _ _ _ hch => hch

mutual
/-- `collapse`: when the node has active children, stash them (collapsed
recursively) in `_children` and clear `children`; otherwise do nothing. -/
def collapse : HNode → HNode
  | .node i e ch hch =>
    match ch with
    | some l => .node i e none (some (collapseL l))
    | none => .node i e none hch

def collapseL : List HNode → List HNode
  | [] => []
  | c :: cs => collapse c :: collapseL cs
end

mutual
/-- `expand`: when the node has stashed children, promote them (expanded
recursively) to `children` and clear `_children`; otherwise do nothing. -/
def expand : HNode → HNode
  | .node i e ch hch =>
    match hch with
    | some l => .node i e (some (expandL l)) none
    | none => .node i e ch none

def expandL : List HNode → List HNode
  | [] => []
  | c :: cs => expand c :: expandL cs
end

mutual
/-- `setExpansionFlagToChildren`: set `_expanded` on the node and recursively
on both the expanded and the collapsed children. -/
def setExpansionFlagToChildren (flag : Bool) : HNode → HNode
  | .node i _ ch hch =>
      .node i flag (setExpansionFlagToChildrenO flag ch) (setExpansionFlagToChildrenO flag hch)

def setExpansionFlagToChildrenO (flag : Bool) : Option (List HNode) → Option (List HNode)
  | none => none
  | some l => some (setExpansionFlagToChildrenL flag l)

def setExpansionFlagToChildrenL (flag : Bool) : List HNode → List HNode
  | [] => []
  | c :: cs => setExpansionFlagToChildren flag c :: setExpansionFlagToChildrenL flag cs
end

/-- Set the `_expanded` flag of the node itself. -/
def setRootExpanded (flag : Bool) : HNode → HNode
  | .node i _ ch hch => .node i flag ch hch

/-- `onButtonClick` (paging buttons and centering aside): with children,
stash them and clear the whole subtree's `_expanded`; without, promote
`_children` (possibly `undefined`) and mark the direct children expanded. -/
def onButtonClick : HNode → HNode
  | .node i e ch hch =>
    match ch with
    | some l => setExpansionFlagToChildren false (.node i e none (some l))
    | none => .node i e (hch.map (fun l => l.map (setRootExpanded true))) none

mutual
/-- `expandSomeNodes`, re-expressed bottom-up: the boolean is a pending
promotion request travelling to the node's parent.  A node issues a request
when its own `_expanded` flag is set; a request arriving from below promotes
the node's `_children` to `children` when present and then continues upward,
and dies at a node that has no `_children` (the `while (parent &&
parent._children)` condition of line 2035). -/
def expandSomeNodes : HNode → HNode × Bool
  | .node i e ch hch =>
      let rh := expandSomeNodesO hch
      let rc := expandSomeNodesO ch
      let reqBelow := rh.2 || rc.2
      let out : HNode :=
        if hch.isSome && reqBelow then .node i e rh.1 none
        else .node i e rc.1 rh.1
      (out, e || (reqBelow && hch.isSome))

def expandSomeNodesO : Option (List HNode) → Option (List HNode) × Bool
  | none => (none, false)
  | some l =>
      let r := expandSomeNodesL l
      (some r.1, r.2)

def expandSomeNodesL : List HNode → List HNode × Bool
  | [] => ([], false)
  | c :: cs =>
      let a := expandSomeNodes c
      let b := expandSomeNodesL cs
      (a.1 :: b.1, a.2 || b.2)
end

/-- The expand/collapse phase of `setLayouts` (lines 2158-2176): when the
root has children, optionally expand every child subtree
(`expandNodesFirst`), collapse them all, stash the root's children when
`initialExpandLevel = 0` (`collapseRoot`), then re-expand the flagged
paths with `expandSomeNodes`. -/
def setLayoutsPhase (expandFirst collapseRoot : Bool) : HNode → HNode
  | .node i e ch hch =>
    match ch with
    | none => .node i e none hch
    | some l =>
        let l1 := if expandFirst then expandL l else l
        let l2 := collapseL l1
        let r : HNode :=
          if collapseRoot then .node i e none (some l2) else .node i e (some l2) hch
        (expandSomeNodes r).1

/-- A defined, non-empty children array. -/
def fullO : Option (List HNode) → Bool
  | some (_ :: _) => true
  | _ => false

mutual
/-- The mutual-exclusivity invariant: no node of the hierarchy has both
`children` and `_children` non-empty at the same time. -/
def exclusive : HNode → Bool
  | .node _ _ ch hch => (!(fullO ch && fullO hch)) && exclusiveO ch && exclusiveO hch

def exclusiveO : Option (List HNode) → Bool
  | none => true
  | some l => exclusiveL l

def exclusiveL : List HNode → Bool
  | [] => true
  | c :: cs => exclusive c && exclusiveL cs
end

mutual
theorem collapse_exclusive : ∀ t : HNode, exclusive t = true → exclusive (collapse t) = true
  | .node i e ch hch, h => by
      match ch with
      | some l =>
          simp only [exclusive, exclusiveO, fullO, Bool.and_eq_true] at h
          have hl := collapseL_exclusive l h.1.2
          simp [collapse, exclusive, exclusiveO, fullO, hl]
      | none =>
          simp only [exclusive, exclusiveO, Bool.and_eq_true] at h
          simp [collapse, exclusive, exclusiveO, fullO, h.2]

theorem collapseL_exclusive : ∀ l : List HNode, exclusiveL l = true → exclusiveL (collapseL l) = true
  | [], _ => rfl
  | c :: cs, h => by
      simp only [exclusiveL, Bool.and_eq_true] at h
      simp [collapseL, exclusiveL, collapse_exclusive c h.1, collapseL_exclusive cs h.2]
end

mutual
theorem expand_exclusive : ∀ t : HNode, exclusive t = true → exclusive (expand t) = true
  | .node i e ch hch, h => by
      match hch with
      | some l =>
          simp only [exclusive, exclusiveO, Bool.and_eq_true] at h
          have hl := expandL_exclusive l h.2
          simp [expand, exclusive, exclusiveO, fullO, hl]
      | none =>
          simp only [exclusive, exclusiveO, Bool.and_eq_true] at h
          simp [expand, exclusive, exclusiveO, fullO, h.1.2]

theorem expandL_exclusive : ∀ l : List HNode, exclusiveL l = true → exclusiveL (expandL l) = true
  | [], _ => rfl
  | c :: cs, h => by
      simp only [exclusiveL, Bool.and_eq_true] at h
      simp [expandL, exclusiveL, expand_exclusive c h.1, expandL_exclusive cs h.2]
end

theorem fullO_setFlagO (f : Bool) (o : Option (List HNode)) :
    fullO (setExpansionFlagToChildrenO f o) = fullO o := by
  match o with
  | none => rfl
  | some [] => rfl
  | some (c :: cs) => rfl

mutual
theorem setFlag_exclusive : ∀ (f : Bool) (t : HNode), exclusive (setExpansionFlagToChildren f t) = exclusive t
  | f, .node i e ch hch => by
      simp [setExpansionFlagToChildren, exclusive, fullO_setFlagO,
        setFlagO_exclusive f ch, setFlagO_exclusive f hch]

theorem setFlagO_exclusive : ∀ (f : Bool) (o : Option (List HNode)), exclusiveO (setExpansionFlagToChildrenO f o) = exclusiveO o
  | _, none => rfl
  | f, some l => by
      simp [setExpansionFlagToChildrenO, exclusiveO, setFlagL_exclusive f l]

theorem setFlagL_exclusive : ∀ (f : Bool) (l : List HNode), exclusiveL (setExpansionFlagToChildrenL f l) = exclusiveL l
  | _, [] => rfl
  | f, c :: cs => by
      simp [setExpansionFlagToChildrenL, exclusiveL, setFlag_exclusive f c, setFlagL_exclusive f cs]
end

theorem setRootExpanded_exclusive (f : Bool) (t : HNode) :
    exclusive (setRootExpanded f t) = exclusive t := by
  match t with
  | .node i e ch hch => rfl

theorem mapRootExpanded_exclusiveL (f : Bool) (l : List HNode) :
    exclusiveL (l.map (setRootExpanded f)) = exclusiveL l := by
  induction l with
  | nil => rfl
  | cons c cs ih => simp [exclusiveL, setRootExpanded_exclusive, ih]

theorem onButtonClick_exclusive (t : HNode) (h : exclusive t = true) :
    exclusive (onButtonClick t) = true := by
  match t with
  | .node i e ch hch =>
    match ch with
    | some l =>
        simp only [exclusive, exclusiveO, Bool.and_eq_true] at h
        rw [onButtonClick, setFlag_exclusive]
        simp [exclusive, exclusiveO, fullO, h.1.2]
    | none =>
        simp only [exclusive, exclusiveO, Bool.and_eq_true] at h
        match hch with
        | none => simp [onButtonClick, exclusive, exclusiveO, fullO]
        | some m =>
            have hm : exclusiveL m = true := by
              have := h.2; simpa [exclusiveO] using this
            simp [onButtonClick, exclusive, exclusiveO, fullO,
              mapRootExpanded_exclusiveL, hm]

theorem fullO_expandSomeNodesO (o : Option (List HNode)) :
    fullO (expandSomeNodesO o).1 = fullO o := by
  match o with
  | none => rfl
  | some [] => rfl
  | some (c :: cs) => rfl

mutual
theorem expandSomeNodes_exclusive : ∀ t : HNode, exclusive t = true → exclusive (expandSomeNodes t).1 = true
  | .node i e ch hch, h => by
      simp only [exclusive, Bool.and_eq_true] at h
      have hc := expandSomeNodesO_exclusive ch h.1.2
      have hh := expandSomeNodesO_exclusive hch h.2
      have htop := h.1.1
      rw [expandSomeNodes]
      by_cases hb : (hch.isSome && ((expandSomeNodesO hch).2 || (expandSomeNodesO ch).2)) = true
      · simp [hb, exclusive, exclusiveO, fullO, hh]
      · rw [Bool.not_eq_true] at hb
        simp [hb, exclusive, fullO_expandSomeNodesO, hc, hh, htop]

theorem expandSomeNodesO_exclusive : ∀ o : Option (List HNode), exclusiveO o = true → exclusiveO (expandSomeNodesO o).1 = true
  | none, _ => rfl
  | some l, h => by
      simp only [exclusiveO] at h
      simp [expandSomeNodesO, exclusiveO, expandSomeNodesL_exclusive l h]

theorem expandSomeNodesL_exclusive : ∀ l : List HNode, exclusiveL l = true → exclusiveL (expandSomeNodesL l).1 = true
  | [], _ => rfl
  | c :: cs, h => by
      simp only [exclusiveL, Bool.and_eq_true] at h
      simp [expandSomeNodesL, exclusiveL, expandSomeNodes_exclusive c h.1,
        expandSomeNodesL_exclusive cs h.2]
end

theorem fullO_some_collapseL (l : List HNode) :
    fullO (some (collapseL l)) = fullO (some l) := by
  match l with
  | [] => rfl
  | c :: cs => rfl

theorem fullO_some_expandL (l : List HNode) :
    fullO (some (expandL l)) = fullO (some l) := by
  match l with
  | [] => rfl
  | c :: cs => rfl

theorem setLayoutsPhase_exclusive (ef cr : Bool) (t : HNode) (h : exclusive t = true) :
    exclusive (setLayoutsPhase ef cr t) = true := by
  match t with
  | .node i e ch hch =>
    match ch with
    | none =>
        simp only [exclusive, Bool.and_eq_true] at h
        simp [setLayoutsPhase, exclusive, exclusiveO, fullO, h.2]
    | some l =>
        simp only [exclusive, exclusiveO, Bool.and_eq_true] at h
        have hl1 : exclusiveL (if ef then expandL l else l) = true := by
          cases ef
          · simpa using h.1.2
          · simpa using expandL_exclusive l h.1.2
        have hl2 := collapseL_exclusive _ hl1
        have hf : fullO (some (collapseL (if ef then expandL l else l))) = fullO (some l) := by
          cases ef <;> simp [fullO_some_collapseL, fullO_some_expandL]
        rw [setLayoutsPhase]
        apply expandSomeNodes_exclusive
        cases cr
        · simp only [Bool.false_eq_true, if_false, exclusive, exclusiveO, Bool.and_eq_true]
          refine ⟨⟨?_, hl2⟩, h.2⟩
          rw [hf]
          exact h.1.1
        · simp [exclusive, exclusiveO, fullO, hl2]

/-- C9: the mutual exclusivity of the active `children` field and the
collapsed store `_children` is preserved by every collapse/expand operation:
`collapse`, `expand`, the `onButtonClick` toggle, `expandSomeNodes`, and the
expand/collapse phase of `setLayouts` (for either value of
`expandNodesFirst` and of the level-0 root collapse). -/
theorem c9_children_mutual_exclusivity (t : HNode) (ef cr : Bool)
    (h : exclusive t = true) :
    exclusive (collapse t) = true ∧ exclusive (expand t) = true ∧
    exclusive (onButtonClick t) = true ∧ exclusive (expandSomeNodes t).1 = true ∧
    exclusive (setLayoutsPhase ef cr t) = true :=
  ⟨collapse_exclusive t h, expand_exclusive t h, onButtonClick_exclusive t h,
   expandSomeNodes_exclusive t h, setLayoutsPhase_exclusive ef cr t h⟩

/-- Witness for `c9_children_mutual_exclusivity` on a two-level hierarchy
with one collapsed and one expanded node. -/
theorem c9_children_mutual_exclusivity_witness :
    (exclusive (HNode.node 1 true
        (some [HNode.node 2 false none (some [HNode.node 3 true none none])]) none) = true) ∧
    (exclusive (collapse (HNode.node 1 true
        (some [HNode.node 2 false none (some [HNode.node 3 true none none])]) none)) = true) :=
  ⟨by decide, (c9_children_mutual_exclusivity _ true true (by decide)).1⟩

theorem childStep_noflag (pid c numCh : Nat) (sibs : List Nat)
    (ctx : List (Nat × List Nat)) (j : Nat) (d : NodeData) (st : LayoutState)
    (hc : d.centered = false) (hhl : d.highlighted = false) (hu : d.upRoot = false)
    (hx : st.expanded d.id = false) (hp : st.hidden pid = false) (hne : d.id ≠ pid) :
    (childStep pid c numCh sibs ctx j d st).expanded = st.expanded ∧
    (∀ x, (childStep pid c numCh sibs ctx j d st).hidden x =
      if x = d.id ∧ c < j then true else st.hidden x) ∧
    (∀ x, (childStep pid c numCh sibs ctx j d st).pagingButton x =
      if x = d.id then decide (j = c ∧ c < numCh - 1) else st.pagingButton x) := by
  have hpd : ¬ (pid = d.id) := fun h => hne h.symm
  have key : childStep pid c numCh sibs ctx j d st =
      { hidden := if c < j then setF st.hidden d.id true else st.hidden,
        pagingButton := if j = c ∧ c < numCh - 1
          then setF (setF st.pagingButton d.id false) d.id true
          else setF st.pagingButton d.id false,
        expanded := st.expanded } := by
    rw [childStep]
    by_cases h1 : c < j <;> by_cases h2 : j = c ∧ c < numCh - 1
    · exact absurd h1 (by omega)
    · simp [h1, h2, setF, hpd, hp, hx, hc, hhl, hu]
    · simp [h1, h2, setF, hpd, hp, hx, hc, hhl, hu]
    · simp [h1, h2, setF, hpd, hp, hx, hc, hhl, hu]
  rw [key]
  refine ⟨rfl, fun x => ?_, fun x => ?_⟩
  · by_cases hx2 : x = d.id <;> by_cases h1 : c < j <;>
      simp [setF, hx2, h1]
  · by_cases hx2 : x = d.id <;> by_cases h2 : j = c ∧ c < numCh - 1 <;>
      simp [setF, hx2, h2]

theorem fanLoop : ∀ (m j0 c numCh : Nat) (sibs : List Nat)
    (ctx : List (Nat × List Nat)) (st : LayoutState),
    (∀ x, st.expanded x = false) →
    st.hidden 0 = false →
    (∀ x, j0 < x → st.hidden x = false) →
    (∀ x, (childrenLoop 0 c numCh sibs ctx j0 ((List.range' (j0+1) m).map leafD) st).expanded x = false) ∧
    (∀ x, (childrenLoop 0 c numCh sibs ctx j0 ((List.range' (j0+1) m).map leafD) st).hidden x =
      if j0 + 1 ≤ x ∧ x < j0 + 1 + m then decide (c + 1 < x) else st.hidden x) ∧
    (∀ x, (childrenLoop 0 c numCh sibs ctx j0 ((List.range' (j0+1) m).map leafD) st).pagingButton x =
      if j0 + 1 ≤ x ∧ x < j0 + 1 + m then decide (x = c + 1 ∧ c < numCh - 1) else st.pagingButton x)
  | 0, j0, c, numCh, sibs, ctx, st, hexp, h0, hclean => by
      simp only [List.range', List.map_nil, childrenLoop]
      refine ⟨hexp, fun x => ?_, fun x => ?_⟩
      · rw [if_neg (by omega)]
      · rw [if_neg (by omega)]
  | m + 1, j0, c, numCh, sibs, ctx, st, hexp, h0, hclean => by
      rw [List.range'_succ, List.map_cons, childrenLoop]
      have hcs := childStep_noflag 0 c numCh sibs ctx j0 (leafD (j0+1)) st rfl rfl rfl
        (hexp _) h0 (by simp [leafD])
      set st2 := childStep 0 c numCh sibs ctx j0 (leafD (j0+1)) st with hst2
      have hid : (leafD (j0+1)).id = j0 + 1 := rfl
      rw [hid] at hcs
      have hexp2 : ∀ x, st2.expanded x = false := by
        intro x; rw [hcs.1]; exact hexp x
      have h02 : st2.hidden 0 = false := by
        rw [hcs.2.1 0, if_neg (by omega)]; exact h0
      have hclean2 : ∀ x, j0 + 1 < x → st2.hidden x = false := by
        intro x hx
        rw [hcs.2.1 x, if_neg (by omega)]
        exact hclean x (by omega)
      have ih := fanLoop m (j0+1) c numCh sibs ctx st2 hexp2 h02 hclean2
      refine ⟨ih.1, fun x => ?_, fun x => ?_⟩
      · rw [ih.2.1 x]
        by_cases hw : j0 + 1 + 1 ≤ x ∧ x < j0 + 1 + 1 + m
        · rw [if_pos hw, if_pos (by omega)]
        · rw [if_neg hw, hcs.2.1 x]
          by_cases hx1 : x = j0 + 1
          · subst hx1
            by_cases hcj : c < j0
            · rw [if_pos ⟨rfl, hcj⟩, if_pos (by omega)]
              exact (decide_eq_true (by omega : c + 1 < j0 + 1)).symm
            · rw [if_neg (fun hcon => hcj hcon.2), if_pos (by omega),
                hclean (j0+1) (by omega)]
              exact (decide_eq_false (by omega : ¬ (c + 1 < j0 + 1))).symm
          · rw [if_neg (fun hcon => hx1 hcon.1), if_neg (by omega)]
      · rw [ih.2.2 x]
        by_cases hw : j0 + 1 + 1 ≤ x ∧ x < j0 + 1 + 1 + m
        · rw [if_pos hw, if_pos (by omega)]
        · rw [if_neg hw, hcs.2.2 x]
          by_cases hx1 : x = j0 + 1
          · subst hx1
            rw [if_pos rfl, if_pos (by omega)]
            simp only [decide_eq_decide]
            omega
          · rw [if_neg hx1, if_neg (by omega)]

theorem runItem_nilKids (st : LayoutState) (it : VisitItem) (h : it.kids = []) :
    runItem st it = st := by
  cases it with
  | mk pid pstep kids ctx =>
      simp only at h
      subst h
      rfl

theorem foldl_runItem_nil : ∀ (items : List VisitItem) (st : LayoutState),
    (∀ it ∈ items, it.kids = []) → items.foldl runItem st = st
  | [], _, _ => rfl
  | it :: items, st, h => by
      rw [List.foldl_cons, runItem_nilKids st it (h it (by simp)),
        foldl_runItem_nil items st (fun x hx => h x (by simp [hx]))]

theorem preorderL_leaf_kids : ∀ (js : List Nat) (cids : List Nat)
    (ctx : List (Nat × List Nat)) (it : VisitItem),
    it ∈ preorderL cids ctx (js.map (fun j => leafK (j+1))) → it.kids = []
  | [], _, _, _, h => by simp [preorderL] at h
  | j :: js, cids, ctx, it, h => by
      rw [List.map_cons, preorderL] at h
      rcases List.mem_append.mp h with h1 | h2
      · rw [leafK, preorder, preorderL] at h1
        rcases List.mem_cons.mp h1 with h3 | h4
        · subst h3; rfl
        · simp at h4
      · exact preorderL_leaf_kids js cids ctx it h2

theorem initState_expanded_false (t : OTree) (hall : ∀ d ∈ allDatas t, d.expanded = false) :
    ∀ x, (initState t).expanded x = false := by
  intro x
  rw [initState]
  simp only
  cases hf : (allDatas t).find? (fun d => d.id = x) with
  | none => rfl
  | some d => simp [hall d (List.mem_of_find?_eq_some hf)]

theorem initState_button_false (t : OTree) (hall : ∀ d ∈ allDatas t, d.pagingButton = false) :
    ∀ x, (initState t).pagingButton x = false := by
  intro x
  rw [initState]
  simp only
  cases hf : (allDatas t).find? (fun d => d.id = x) with
  | none => rfl
  | some d => simp [hall d (List.mem_of_find?_eq_some hf)]

theorem allDatasL_leaves : ∀ (js : List Nat) (d : NodeData),
    d ∈ allDatasL (js.map (fun j => leafK (j+1))) → ∃ i, d = leafD i
  | [], _, h => by simp [allDatasL] at h
  | j :: js, d, h => by
      rw [List.map_cons, allDatasL, leafK, allDatas, allDatasL] at h
      rcases List.mem_append.mp h with h1 | h2
      · rcases List.mem_cons.mp h1 with h3 | h4
        · exact ⟨j + 1, h3⟩
        · simp at h4
      · exact allDatasL_leaves js d h2

theorem fan_datas_flags (c n : Nat) :
    (∀ d ∈ allDatas (fan c n), d.expanded = false) ∧
    (∀ d ∈ allDatas (fan c n), d.pagingButton = false) := by
  constructor <;>
  · intro d hd
    rw [fan, allDatas] at hd
    rcases List.mem_cons.mp hd with h1 | h2
    · subst h1; rfl
    · obtain ⟨i, hi⟩ := allDatasL_leaves (List.range n) d h2
      subst hi; rfl

theorem fan_kids (n : Nat) :
    allDatasRoots ((List.range n).map fun j => leafK (j+1)) = (List.range' 1 n).map leafD := by
  rw [allDatasRoots, List.map_map, List.range'_eq_map_range, List.map_map]
  apply List.map_congr_left
  intro j _
  simp [Function.comp, leafK, OTree.dataOf, Nat.add_comm]

theorem computeHidden_fan (c n : Nat) :
    (∀ x, (computeHidden (fan c n)).hidden x =
        if 1 ≤ x ∧ x < 1 + n then decide (c + 1 < x) else false) ∧
    (∀ x, (computeHidden (fan c n)).pagingButton x =
        if 1 ≤ x ∧ x < 1 + n then decide (x = c + 1 ∧ c < n - 1) else false) := by
  have hflags := fan_datas_flags c n
  have hexp := initState_expanded_false _ hflags.1
  have hbtn := initState_button_false _ hflags.2
  have hfold : computeHidden (fan c n) =
      childrenLoop 0 c (((List.range' 1 n).map leafD).length)
        (((List.range' 1 n).map leafD).map (·.id)) [(0, [])] 0
        ((List.range' 1 n).map leafD) (initState (fan c n)) := by
    rw [computeHidden]
    rw [show rootId (fan c n) = 0 from rfl]
    conv_lhs => rw [fan, preorder]
    rw [List.foldl_cons,
      foldl_runItem_nil _ _ (fun it hit => preorderL_leaf_kids (List.range n) _ _ it hit),
      fan_kids]
    rw [show (fan c n) = OTree.node { leafD 0 with pagingStep := c }
      ((List.range n).map fun j => leafK (j + 1)) from rfl]
    rfl
  have hlen : ((List.range' 1 n).map leafD).length = n := by
    rw [List.length_map, List.length_range']
  rw [hlen] at hfold
  have hf := fanLoop n 0 c n (((List.range' 1 n).map leafD).map (·.id)) [(0, [])]
    (initState (fan c n)) hexp rfl (fun _ _ => rfl)
  constructor
  · intro x
    rw [hfold, hf.2.1 x]
    rfl
  · intro x
    rw [hfold, hf.2.2 x]
    by_cases hw : 1 ≤ x ∧ x < 1 + n
    · rw [if_pos hw, if_pos hw]
    · rw [if_neg hw, if_neg hw, hbtn x]

theorem initPaging_leaf (m j : Nat) : initPaging m (leafK (j+1)) = leafK (j+1) := by
  rw [leafK, initPaging, initPagingL]
  simp

theorem initPagingL_leaves (m : Nat) : ∀ js : List Nat,
    initPagingL m (js.map fun j => leafK (j+1)) = js.map fun j => leafK (j+1)
  | [] => rfl
  | j :: js => by
      rw [List.map_cons, initPagingL, initPaging_leaf, initPagingL_leaves m js]

theorem initPaging_fan (m n : Nat) (hn : 0 < n) : initPaging m (fan 0 n) = fan m n := by
  rw [fan, fan, initPaging, initPagingL_leaves]
  have hc : (((List.range n).map fun j => leafK (j+1)).length ≠ 0 ∧
      ({ leafD 0 with pagingStep := 0 } : NodeData).pagingStep = 0) := by
    constructor
    · rw [List.length_map, List.length_range]; omega
    · rfl
  rw [if_pos hc]

/-- C1 (amended): in the visibility pass, for a node with `n` children and
paging cursor `c` (no visibility flags set), the child of index `j` ends in
the hidden set iff `j > c`, and is marked as the paging placeholder iff
`j = c` and further children exist beyond it (`n - 1 > c`); consequently for
a node with 2001 children and cursor 2000 all 2001 children stay visible and
no placeholder is produced. -/
theorem c1_paging_cutoff (c n j : Nat) (hj : j < n) :
    ((computeHidden (fan c n)).hidden (j + 1) = true ↔ c < j) ∧
    ((computeHidden (fan c n)).pagingButton (j + 1) = true ↔ (j = c ∧ c < n - 1)) := by
  have h := computeHidden_fan c n
  constructor
  · rw [h.1 (j + 1), if_pos (by omega)]
    simp only [decide_eq_true_eq]
    omega
  · rw [h.2 (j + 1), if_pos (by omega)]
    simp only [decide_eq_true_eq]
    omega

/-- Witness for `c1_paging_cutoff`: cursor 2, five children; the child of
index 4 is hidden. -/
theorem c1_paging_cutoff_witness :
    4 < 5 ∧ ((computeHidden (fan 2 5)).hidden (4 + 1) = true ↔ 2 < 4) :=
  ⟨by decide, (c1_paging_cutoff 2 5 4 (by decide)).1⟩

/-- C1 counterexample: for a node with 2001 children and
`minPagingVisibleNodes = 2000` (so the initialized cursor is 2000), the
visibility pass hides no child and produces no paging placeholder: all 2001
children are visible, not 2000 plus a placeholder as claimed. -/
theorem c1_counterexample :
    ((List.range 2001).filter
      (fun j => (computeHidden (initPaging 2000 (fan 0 2001))).hidden (j + 1))).length = 0 ∧
    ((List.range 2001).filter
      (fun j => (computeHidden (initPaging 2000 (fan 0 2001))).pagingButton (j + 1))).length = 0 := by
  rw [initPaging_fan 2000 2001 (by omega)]
  have h := computeHidden_fan 2000 2001
  constructor
  · rw [List.length_eq_zero]
    rw [List.filter_eq_nil_iff]
    intro j hj
    rw [List.mem_range] at hj
    rw [h.1 (j + 1), if_pos (by omega)]
    simp only [decide_eq_true_eq]
    omega
  · rw [List.length_eq_zero]
    rw [List.filter_eq_nil_iff]
    intro j hj
    rw [List.mem_range] at hj
    rw [h.2 (j + 1), if_pos (by omega)]
    simp only [decide_eq_true_eq]
    omega

/-- Ids of the children processed by one visit. -/
def kidsIds (it : VisitItem) : List Nat := it.kids.map (·.id)

theorem unhideLoop_hidden_false : ∀ (frames : List (Nat × List Nat)) (st : LayoutState) (x : Nat),
    st.hidden x = false → (unhideLoop frames st).hidden x = false
  | [], _, _, h => h
  | (nid, sibs) :: rest, st, x, h => by
      rw [unhideLoop]
      by_cases hc : (st.hidden nid || st.pagingButton nid) = true
      · rw [if_pos hc]
        apply unhideLoop_hidden_false
        by_cases hb : st.pagingButton nid = true <;> simp [hb, setF, h]
      · rw [if_neg hc]; exact h

theorem unhideLoop_head_false (rest : List (Nat × List Nat)) (nid : Nat)
    (sibs : List Nat) (st : LayoutState) :
    (unhideLoop ((nid, sibs) :: rest) st).hidden nid = false := by
  rw [unhideLoop]
  by_cases hc : (st.hidden nid || st.pagingButton nid) = true
  · rw [if_pos hc]
    apply unhideLoop_hidden_false
    by_cases hb : st.pagingButton nid = true <;> simp [hb, setF]
  · rw [if_neg hc]
    simp only [Bool.or_eq_true, not_or, Bool.not_eq_true] at hc
    exact hc.1

theorem childStep_hidden_pres (pid pstep numCh : Nat) (sibs : List Nat)
    (ctx : List (Nat × List Nat)) (j : Nat) (c : NodeData) (st : LayoutState)
    (x : Nat) (hx : x ≠ c.id) (h : st.hidden x = false) :
    (childStep pid pstep numCh sibs ctx j c st).hidden x = false := by
  simp only [childStep]
  split_ifs <;>
    first
      | (apply unhideLoop_hidden_false; simp [setF, hx, h])
      | simp [setF, hx, h]

theorem childStep_upRoot (pid pstep numCh : Nat) (sibs : List Nat)
    (ctx : List (Nat × List Nat)) (j : Nat) (c : NodeData) (st : LayoutState)
    (hu : c.upRoot = true) :
    (childStep pid pstep numCh sibs ctx j c st).hidden c.id = false := by
  simp only [childStep, hu, Bool.or_true, if_true]
  exact unhideLoop_head_false _ _ _ _

theorem childrenLoop_hidden_pres : ∀ (kids : List NodeData) (pid pstep numCh : Nat)
    (sibs : List Nat) (ctx : List (Nat × List Nat)) (j : Nat) (st : LayoutState) (x : Nat),
    x ∉ kids.map (·.id) → st.hidden x = false →
    (childrenLoop pid pstep numCh sibs ctx j kids st).hidden x = false
  | [], _, _, _, _, _, _, _, _, _, h => h
  | c :: rest, pid, pstep, numCh, sibs, ctx, j, st, x, hx, h => by
      rw [childrenLoop]
      apply childrenLoop_hidden_pres rest pid pstep numCh sibs ctx (j+1) _ x
        (fun hm => hx (by simp [List.mem_cons]; right; simpa using hm))
      exact childStep_hidden_pres pid pstep numCh sibs ctx j c st x
        (fun he => hx (by simp [he])) h

theorem childrenLoop_upRoot : ∀ (kids : List NodeData) (pid pstep numCh : Nat)
    (sibs : List Nat) (ctx : List (Nat × List Nat)) (j : Nat) (st : LayoutState)
    (c : NodeData), c ∈ kids → c.upRoot = true → (kids.map (·.id)).Nodup →
    (childrenLoop pid pstep numCh sibs ctx j kids st).hidden c.id = false
  | [], _, _, _, _, _, _, _, _, hc, _, _ => absurd hc (by simp)
  | k :: rest, pid, pstep, numCh, sibs, ctx, j, st, c, hc, hu, hnd => by
      rw [childrenLoop]
      rcases List.mem_cons.mp hc with rfl | htail
      · apply childrenLoop_hidden_pres
        · rw [List.map_cons, List.nodup_cons] at hnd
          exact hnd.1
        · exact childStep_upRoot pid pstep numCh sibs ctx j c st hu
      · apply childrenLoop_upRoot rest pid pstep numCh sibs ctx (j+1) _ c htail hu
        rw [List.map_cons, List.nodup_cons] at hnd
        exact hnd.2

theorem runItem_hidden_pres (st : LayoutState) (it : VisitItem) (x : Nat)
    (hx : x ∉ kidsIds it) (h : st.hidden x = false) :
    (runItem st it).hidden x = false := by
  rw [runItem]
  exact childrenLoop_hidden_pres it.kids it.pid it.pstep it.kids.length
    (it.kids.map (·.id)) it.ctx 0 st x hx h

theorem runItem_upRoot (st : LayoutState) (it : VisitItem) (c : NodeData)
    (hc : c ∈ it.kids) (hu : c.upRoot = true) (hnd : (kidsIds it).Nodup) :
    (runItem st it).hidden c.id = false := by
  rw [runItem]
  exact childrenLoop_upRoot it.kids it.pid it.pstep it.kids.length
    (it.kids.map (·.id)) it.ctx 0 st c hc hu hnd

theorem foldl_hidden_pres : ∀ (items : List VisitItem) (st : LayoutState) (x : Nat),
    (∀ it ∈ items, x ∉ kidsIds it) → st.hidden x = false →
    (items.foldl runItem st).hidden x = false
  | [], _, _, _, h => h
  | it :: items, st, x, hall, h => by
      rw [List.foldl_cons]
      exact foldl_hidden_pres items _ x (fun it2 h2 => hall it2 (by simp [h2]))
        (runItem_hidden_pres st it x (hall it (by simp)) h)

theorem foldl_upRoot : ∀ (items : List VisitItem) (st : LayoutState) (c : NodeData),
    c.upRoot = true → (items.flatMap kidsIds).Nodup →
    (∃ it ∈ items, c ∈ it.kids) →
    (items.foldl runItem st).hidden c.id = false
  | [], _, _, _, _, hex => absurd hex (by simp)
  | it :: items, st, c, hu, hnd, hex => by
      rw [List.foldl_cons]
      rw [List.flatMap_cons, List.nodup_append] at hnd
      rcases hex with ⟨it2, hmem, hck⟩
      rcases List.mem_cons.mp hmem with rfl | htail
      · have hcid : c.id ∈ kidsIds it2 := List.mem_map_of_mem _ hck
        apply foldl_hidden_pres items _ c.id
        · intro it3 h3 hin
          exact hnd.2.2 hcid (List.mem_flatMap.mpr ⟨it3, h3, hin⟩)
        · exact runItem_upRoot st it2 c hck hu hnd.1
      · exact foldl_upRoot items _ c hu hnd.2.1 ⟨it2, htail, hck⟩

mutual
theorem preorder_bind_perm : ∀ (t : OTree) (ctx : List (Nat × List Nat)),
    ((preorder ctx t).flatMap kidsIds).Perm (allIdsL t.kidsOf)
  | .node d cs, ctx => by
      rw [preorder, List.flatMap_cons]
      exact preorderL_bind_perm cs ((allDatasRoots cs).map (·.id)) ctx

theorem preorderL_bind_perm : ∀ (cs : List OTree) (cids : List Nat)
    (ctx : List (Nat × List Nat)),
    (((allDatasRoots cs).map (·.id) : List Nat) ++
      (preorderL cids ctx cs).flatMap kidsIds).Perm (allIdsL cs)
  | [], _, _ => by simp [allDatasRoots, preorderL, allIdsL]
  | c :: cs, cids, ctx => by
      have h1 := preorder_bind_perm c ((c.dataOf.id, cids) :: ctx)
      have h2 := preorderL_bind_perm cs cids ctx
      rw [allDatasRoots, List.map_cons, List.map_cons, preorderL, List.flatMap_append,
        List.cons_append, allIdsL]
      cases c with
      | node dc csc =>
        simp only [OTree.dataOf, OTree.kidsOf] at h1 ⊢
        rw [allIds, List.cons_append]
        apply List.Perm.cons
        have hmid := List.perm_append_comm_assoc
          ((cs.map (fun x => x.dataOf)).map (fun x => x.id))
          ((preorder ((dc.id, cids) :: ctx) (OTree.node dc csc)).flatMap kidsIds)
          ((preorderL cids ctx cs).flatMap kidsIds)
        apply hmid.trans
        apply List.Perm.append h1
        have he : ((cs.map (fun x => x.dataOf)).map (fun x => x.id) : List Nat) =
            (allDatasRoots cs).map (·.id) := by rw [allDatasRoots]
        rw [he]
        exact h2
end

mutual
theorem subDatas_in_kids : ∀ (t : OTree) (ctx : List (Nat × List Nat)) (d : NodeData),
    d ∈ allDatasL t.kidsOf → ∃ it ∈ preorder ctx t, d ∈ it.kids
  | .node d0 cs, ctx, d, hd => by
      rcases subDatas_in_kidsL cs ((allDatasRoots cs).map (·.id)) ctx d hd with hroot | ⟨it, hit, hk⟩
      · exact ⟨⟨d0.id, d0.pagingStep, allDatasRoots cs, ctx⟩, by rw [preorder]; simp, hroot⟩
      · exact ⟨it, by rw [preorder]; simp [hit], hk⟩

theorem subDatas_in_kidsL : ∀ (cs : List OTree) (cids : List Nat)
    (ctx : List (Nat × List Nat)) (d : NodeData),
    d ∈ allDatasL cs →
    d ∈ allDatasRoots cs ∨ ∃ it ∈ preorderL cids ctx cs, d ∈ it.kids
  | [], _, _, _, hd => by simp [allDatasL] at hd
  | c :: cs, cids, ctx, d, hd => by
      rw [allDatasL] at hd
      rcases List.mem_append.mp hd with h1 | h2
      · cases c with
        | node dc csc =>
          rw [allDatas] at h1
          rcases List.mem_cons.mp h1 with rfl | hsub
          · left
            simp [allDatasRoots, OTree.dataOf]
          · obtain ⟨it, hit, hk⟩ := subDatas_in_kids (OTree.node dc csc)
              (((OTree.node dc csc).dataOf.id, cids) :: ctx) d hsub
            right
            exact ⟨it, by rw [preorderL]; exact List.mem_append_left _ hit, hk⟩
      · rcases subDatas_in_kidsL cs cids ctx d h2 with hroot | ⟨it, hit, hk⟩
        · left
          rw [allDatasRoots, List.map_cons]
          exact List.mem_cons_of_mem _ (by rwa [allDatasRoots] at hroot)
        · right
          exact ⟨it, by rw [preorderL]; exact List.mem_append_right _ hit, hk⟩
end

/-- Any record whose `_upToTheRootHighlighted` flag is set before the pass is
absent from the final hidden map: its own child-step re-surfaces it, later
steps only hide their own (distinct) children, and the root is never hidden
at all. -/
theorem upRoot_unhidden (t : OTree) (hnd : (allIds t).Nodup) (d : NodeData)
    (hd : d ∈ allDatas t) (hu : d.upRoot = true ∨ d.id = rootId t) :
    (computeHidden t).hidden d.id = false := by
  have hperm := preorder_bind_perm t [(rootId t, [])]
  rw [computeHidden]
  cases t with
  | node d0 cs =>
    rw [allIds, List.nodup_cons] at hnd
    have hndL : ((preorder [(rootId (OTree.node d0 cs), [])]
        (OTree.node d0 cs)).flatMap kidsIds).Nodup := by
      rw [hperm.nodup_iff]
      exact hnd.2
    by_cases hroot : d.id = rootId (OTree.node d0 cs)
    · rw [hroot]
      apply foldl_hidden_pres
      · intro it hit hin
        have : rootId (OTree.node d0 cs) ∈
            ((preorder [(rootId (OTree.node d0 cs), [])] (OTree.node d0 cs)).flatMap kidsIds) :=
          List.mem_flatMap.mpr ⟨it, hit, hin⟩
        rw [List.Perm.mem_iff hperm] at this
        exact hnd.1 this
      · rfl
    · have hu2 : d.upRoot = true := by
        rcases hu with h | h
        · exact h
        · exact absurd h hroot
      rw [allDatas] at hd
      rcases List.mem_cons.mp hd with rfl | hsub
      · exact absurd rfl hroot
      · obtain ⟨it, hit, hk⟩ :=
          subDatas_in_kids (OTree.node d0 cs) [(rootId (OTree.node d0 cs), [])] d hsub
        exact foldl_upRoot _ _ d hu2 hndL ⟨it, hit, hk⟩

mutual
/-- The chain of ids from the root down to the node with the given id
(the node's ancestors, itself included), when present. -/
def pathTo (target : Nat) : OTree → Option (List Nat)
  | .node d cs =>
      if d.id = target then some [d.id]
      else
        match pathToL target cs with
        | some p => some (d.id :: p)
        | none => none

def pathToL (target : Nat) : List OTree → Option (List Nat)
  | [] => none
  | c :: cs =>
      match pathTo target c with
      | some p => some p
      | none => pathToL target cs
end

mutual
theorem pathTo_found : ∀ (target : Nat) (t : OTree), target ∈ allIds t →
    ∃ p, pathTo target t = some p
  | target, .node d cs, hmem => by
      rw [pathTo]
      by_cases hid : d.id = target
      · exact ⟨[d.id], by rw [if_pos hid]⟩
      · rw [allIds, List.mem_cons] at hmem
        rcases hmem with h1 | h2
        · exact absurd h1.symm hid
        · obtain ⟨p, hp⟩ := pathToL_found target cs h2
          exact ⟨d.id :: p, by rw [if_neg hid, hp]⟩

theorem pathToL_found : ∀ (target : Nat) (cs : List OTree), target ∈ allIdsL cs →
    ∃ p, pathToL target cs = some p
  | target, [], hmem => by simp [allIdsL] at hmem
  | target, c :: cs, hmem => by
      rw [pathToL]
      cases hc : pathTo target c with
      | some q => exact ⟨q, rfl⟩
      | none =>
          rw [allIdsL, List.mem_append] at hmem
          rcases hmem with h1 | h2
          · obtain ⟨q, hq⟩ := pathTo_found target c h1
            rw [hq] at hc
            exact absurd hc (by simp)
          · exact pathToL_found target cs h2
end

mutual
theorem setUpToTheRootGo_ids : ∀ (target : Nat) (t : OTree),
    allIds (setUpToTheRootGo target t).1 = allIds t
  | target, .node d cs => by
      rw [setUpToTheRootGo]
      by_cases hc : d.id = target ∨ (setUpToTheRootGoL target cs).2 = true
      · rw [if_pos hc]
        rw [allIds, allIds, setUpToTheRootGoL_ids target cs]
      · rw [if_neg hc]
        rw [allIds, allIds, setUpToTheRootGoL_ids target cs]

theorem setUpToTheRootGoL_ids : ∀ (target : Nat) (cs : List OTree),
    allIdsL (setUpToTheRootGoL target cs).1 = allIdsL cs
  | _, [] => rfl
  | target, c :: cs => by
      rw [setUpToTheRootGoL]
      rw [allIdsL, allIdsL, setUpToTheRootGo_ids target c, setUpToTheRootGoL_ids target cs]
end

mutual
theorem path_marked : ∀ (target : Nat) (t : OTree) (p : List Nat),
    pathTo target t = some p →
    (setUpToTheRootGo target t).2 = true ∧
    ∀ i ∈ p, ∃ d ∈ allDatas (setUpToTheRootGo target t).1,
      d.id = i ∧ d.expanded = true ∧ d.upRoot = true
  | target, .node d cs, p, hp => by
      rw [pathTo] at hp
      by_cases hid : d.id = target
      · rw [if_pos hid, Option.some_inj] at hp
        subst hp
        rw [setUpToTheRootGo, if_pos (Or.inl hid)]
        refine ⟨rfl, fun i hi => ?_⟩
        rw [List.mem_singleton] at hi
        subst hi
        exact ⟨{ d with expanded := true, upRoot := true },
          by rw [allDatas]; exact List.mem_cons_self _ _, rfl, rfl, rfl⟩
      · rw [if_neg hid] at hp
        cases hq : pathToL target cs with
        | none => rw [hq] at hp; exact absurd hp (by simp)
        | some q =>
            rw [hq, Option.some_inj] at hp
            subst hp
            obtain ⟨hfound, hmarked⟩ := pathL_marked target cs q hq
            rw [setUpToTheRootGo, if_pos (Or.inr hfound)]
            refine ⟨rfl, fun i hi => ?_⟩
            rcases List.mem_cons.mp hi with rfl | htail
            · exact ⟨{ d with expanded := true, upRoot := true },
                by rw [allDatas]; exact List.mem_cons_self _ _, rfl, rfl, rfl⟩
            · obtain ⟨d2, hd2, hrest⟩ := hmarked i htail
              exact ⟨d2, by rw [allDatas]; exact List.mem_cons_of_mem _ hd2, hrest⟩

theorem pathL_marked : ∀ (target : Nat) (cs : List OTree) (p : List Nat),
    pathToL target cs = some p →
    (setUpToTheRootGoL target cs).2 = true ∧
    ∀ i ∈ p, ∃ d ∈ allDatasL (setUpToTheRootGoL target cs).1,
      d.id = i ∧ d.expanded = true ∧ d.upRoot = true
  | target, [], p, hp => by rw [pathToL] at hp; exact absurd hp (by simp)
  | target, c :: cs, p, hp => by
      rw [pathToL] at hp
      cases hc : pathTo target c with
      | some q =>
          rw [hc, Option.some_inj] at hp
          obtain ⟨hfound, hmarked⟩ := path_marked target c q hc
          rw [setUpToTheRootGoL]
          constructor
          · simp [hfound]
          · intro i hi
            rw [← hp] at hi
            obtain ⟨d2, hd2, hrest⟩ := hmarked i hi
            exact ⟨d2, by rw [allDatasL]; exact List.mem_append_left _ hd2, hrest⟩
      | none =>
          rw [hc] at hp
          obtain ⟨hfound, hmarked⟩ := pathL_marked target cs p hp
          rw [setUpToTheRootGoL]
          constructor
          · simp [hfound]
          · intro i hi
            obtain ⟨d2, hd2, hrest⟩ := hmarked i hi
            exact ⟨d2, by rw [allDatasL]; exact List.mem_append_right _ hd2, hrest⟩
end

/-- C3: after `setUpToTheRootHighlighted(id)` for an id present in the data,
the node and every ancestor up to the root carry `_expanded = true` and
`_upToTheRootHighlighted = true`, and the following visibility-resolution
pass (`setLayouts`) leaves none of them in the hidden set. -/
theorem c3_highlight_to_root (t : OTree) (target : Nat)
    (hnd : (allIds t).Nodup) (hmem : target ∈ allIds t) :
    ∃ p, pathTo target t = some p ∧
      ∀ i ∈ p, ∃ d ∈ allDatas (setUpToTheRootHighlighted target t),
        d.id = i ∧ d.expanded = true ∧ d.upRoot = true ∧
        (computeHidden (setUpToTheRootHighlighted target t)).hidden i = false := by
  obtain ⟨p, hp⟩ := pathTo_found target t hmem
  refine ⟨p, hp, fun i hi => ?_⟩
  obtain ⟨hfound, hmarked⟩ := path_marked target t p hp
  obtain ⟨d, hd, hid, hexp, hup⟩ := hmarked i hi
  refine ⟨d, hd, hid, hexp, hup, ?_⟩
  have hnd2 : (allIds (setUpToTheRootHighlighted target t)).Nodup := by
    rw [setUpToTheRootHighlighted, setUpToTheRootGo_ids]
    exact hnd
  have := upRoot_unhidden (setUpToTheRootHighlighted target t) hnd2 d hd (Or.inl hup)
  rwa [hid] at this

/-- Witness for `c3_highlight_to_root`: highlighting node 6 two levels deep
behind a paging cutoff. -/
theorem c3_highlight_to_root_witness :
    ((allIds (OTree.node { leafD 0 with pagingStep := 1 }
      [OTree.node { leafD 1 with pagingStep := 1 } [leafK 4, leafK 5, leafK 6],
       leafK 2, leafK 3])).Nodup ∧
     6 ∈ allIds (OTree.node { leafD 0 with pagingStep := 1 }
      [OTree.node { leafD 1 with pagingStep := 1 } [leafK 4, leafK 5, leafK 6],
       leafK 2, leafK 3])) ∧
    (∃ p, pathTo 6 (OTree.node { leafD 0 with pagingStep := 1 }
      [OTree.node { leafD 1 with pagingStep := 1 } [leafK 4, leafK 5, leafK 6],
       leafK 2, leafK 3]) = some p ∧
      ∀ i ∈ p, ∃ d ∈ allDatas (setUpToTheRootHighlighted 6
        (OTree.node { leafD 0 with pagingStep := 1 }
          [OTree.node { leafD 1 with pagingStep := 1 } [leafK 4, leafK 5, leafK 6],
           leafK 2, leafK 3])),
        d.id = i ∧ d.expanded = true ∧ d.upRoot = true ∧
        (computeHidden (setUpToTheRootHighlighted 6
          (OTree.node { leafD 0 with pagingStep := 1 }
            [OTree.node { leafD 1 with pagingStep := 1 } [leafK 4, leafK 5, leafK 6],
             leafK 2, leafK 3]))).hidden i = false) :=
  ⟨⟨by decide, by decide⟩, c3_highlight_to_root _ 6 (by decide) (by decide)⟩

mutual
/-- `expandAll` (lines 2472-2478): set `_expanded` on every record of the
data array, then re-render. -/
def expandAll : OTree → OTree
  | .node d cs => .node { d with expanded := true } (expandAllL cs)

def expandAllL : List OTree → List OTree
  | [] => []
  | c :: cs => expandAll c :: expandAllL cs
end

mutual
/-- `collapseAll` (lines 2480-2486): clear `_expanded` on every node of the
cached `allNodes` array — the descendants of the most recent layout's
paging-filtered root, whose ids are `vis` — then reset `initialExpandLevel`
to 1 and re-render.  Records absent from `allNodes` (paging-hidden at the
last layout) are not touched. -/
def collapseAll (vis : List Nat) : OTree → OTree
  | .node d cs =>
      .node (if d.id ∈ vis then { d with expanded := false } else d) (collapseAllL vis cs)

def collapseAllL (vis : List Nat) : List OTree → List OTree
  | [] => []
  | c :: cs => collapseAll vis c :: collapseAllL vis cs
end

mutual
theorem expandAll_datas : ∀ t : OTree,
    allDatas (expandAll t) = (allDatas t).map (fun d => { d with expanded := true })
  | .node d cs => by
      rw [expandAll, allDatas, allDatas, List.map_cons, expandAllL_datas cs]

theorem expandAllL_datas : ∀ cs : List OTree,
    allDatasL (expandAllL cs) = (allDatasL cs).map (fun d => { d with expanded := true })
  | [] => rfl
  | c :: cs => by
      rw [expandAllL, allDatasL, allDatasL, List.map_append, expandAll_datas c,
        expandAllL_datas cs]
end

mutual
theorem collapseAll_datas : ∀ (vis : List Nat) (t : OTree),
    allDatas (collapseAll vis t) =
      (allDatas t).map (fun d => if d.id ∈ vis then { d with expanded := false } else d)
  | vis, .node d cs => by
      rw [collapseAll, allDatas, allDatas, List.map_cons, collapseAllL_datas vis cs]

theorem collapseAllL_datas : ∀ (vis : List Nat) (cs : List OTree),
    allDatasL (collapseAllL vis cs) =
      (allDatasL cs).map (fun d => if d.id ∈ vis then { d with expanded := false } else d)
  | _, [] => rfl
  | vis, c :: cs => by
      rw [collapseAllL, allDatasL, allDatasL, List.map_append, collapseAll_datas vis c,
        collapseAllL_datas vis cs]
end

/-- C8 (amended): `expandAll` sets `_expanded = true` on every record of the
data array; `collapseAll` sets `_expanded = false` exactly on the records of
the cached `allNodes` set (ids `vis`) and leaves every other record's flags
unchanged. -/
theorem c8_expandAll_collapseAll (t : OTree) (vis : List Nat) :
    (∀ d ∈ allDatas (expandAll t), d.expanded = true) ∧
    allDatas (collapseAll vis t) =
      (allDatas t).map (fun d => if d.id ∈ vis then { d with expanded := false } else d) := by
  refine ⟨fun d hd => ?_, collapseAll_datas vis t⟩
  rw [expandAll_datas] at hd
  obtain ⟨d0, _, rfl⟩ := List.mem_map.mp hd
  rfl

/-- C8 counterexample: with `minPagingVisibleNodes = 1`, the prior layout of
root 0 with children 1, 2, 3 hides record 3, so `allNodes = [0, 1, 2]`;
`setCentered 3` then sets `_expanded` on record 3 without re-rendering, and
the subsequent `collapseAll` leaves record 3 with `_expanded = true`: not
every record of the data array ends up un-expanded. -/
theorem c8_counterexample :
    ((computeHidden (OTree.node { leafD 0 with pagingStep := 1 }
        [leafK 1, leafK 2, leafK 3])).hidden 3 = true ∧
     (computeHidden (OTree.node { leafD 0 with pagingStep := 1 }
        [leafK 1, leafK 2, leafK 3])).hidden 0 = false ∧
     (computeHidden (OTree.node { leafD 0 with pagingStep := 1 }
        [leafK 1, leafK 2, leafK 3])).hidden 1 = false ∧
     (computeHidden (OTree.node { leafD 0 with pagingStep := 1 }
        [leafK 1, leafK 2, leafK 3])).hidden 2 = false) ∧
    (allDatas (collapseAll [0, 1, 2] (setCentered 3 (OTree.node { leafD 0 with pagingStep := 1 }
        [leafK 1, leafK 2, leafK 3])))).map (fun d => (d.id, d.expanded)) =
      [(0, false), (1, false), (2, false), (3, true)] := by
  constructor
  · exact ⟨by decide, by decide, by decide, by decide⟩
  · decide

/-!
## `setExpanded` (lines 2268-2287)

The node is looked up in `allNodes` (which contains every record of the
current hierarchy); its own `_expanded` is set to the flag, and when the flag
is false, every node of `parent.descendants()` except the parent itself also
gets `_expanded = false`.  d3's `descendants()` walks the active `children`
field only, so "descendants" below means children-reachable nodes. -/

mutual
/-- All ids of a hierarchy node's subtree (both children fields). -/
def idsH : HNode → List Nat
  | .node i _ ch hch => i :: (idsHO ch ++ idsHO hch)

def idsHO : Option (List HNode) → List Nat
  | none => []
  | some l => idsHL l

def idsHL : List HNode → List Nat
  | [] => []
  | c :: cs => idsH c ++ idsHL cs
end

mutual
/-- The (id, `_expanded`) pairs of every record of the subtree. -/
def datasH : HNode → List (Nat × Bool)
  | .node i e ch hch => (i, e) :: (datasHO ch ++ datasHO hch)

def datasHO : Option (List HNode) → List (Nat × Bool)
  | none => []
  | some l => datasHL l

def datasHL : List HNode → List (Nat × Bool)
  | [] => []
  | c :: cs => datasH c ++ datasHL cs
end

mutual
/-- Ids of `node.descendants()`: the node and everything reachable through
the active `children` field (collapsed `_children` subtrees are not
traversed by d3). -/
def descIdsH : HNode → List Nat
  | .node i _ ch _ => i :: descIdsHO ch

def descIdsHO : Option (List HNode) → List Nat
  | none => []
  | some l => descIdsHL l

def descIdsHL : List HNode → List Nat
  | [] => []
  | c :: cs => descIdsH c ++ descIdsHL cs
end

mutual
/-- Clear `_expanded` on a node and all of its children-reachable
descendants (the per-node effect of the `descendants.forEach` of line
2282). -/
def clearExpandedDesc : HNode → HNode
  | .node i _ ch hch => .node i false (clearExpandedDescO ch) hch

def clearExpandedDescO : Option (List HNode) → Option (List HNode)
  | none => none
  | some l => some (clearExpandedDescL l)

def clearExpandedDescL : List HNode → List HNode
  | [] => []
  | c :: cs => clearExpandedDesc c :: clearExpandedDescL cs
end

/-- Set the `_expanded` flag of the one direct child matching the id
(line 2278, `node.data._expanded = expandedFlag`). -/
def setKid (target : Nat) (flag : Bool) (c : HNode) : HNode :=
  if c.idOf = target then setRootExpanded flag c else c

/-- The ids of a node's direct children in both fields (the candidates whose
`parent` is this node). -/
def directKidIds (n : HNode) : List Nat :=
  ((n.chOf.getD []) ++ (n.hchOf.getD [])).map HNode.idOf

mutual
/-- `setExpanded` below the root: at the target's parent, set the target's
own flag, and when collapsing clear `_expanded` on every children-reachable
strict descendant of the parent; elsewhere recurse.  The boolean reports
whether the parent was found. -/
def setExpandedGo (target : Nat) (flag : Bool) : HNode → HNode × Bool
  | .node i e ch hch =>
      if target ∈ directKidIds (.node i e ch hch) then
        if flag then
          (.node i e (ch.map (fun l => l.map (setKid target true)))
                     (hch.map (fun l => l.map (setKid target true))), true)
        else
          (.node i e (ch.map (fun l => l.map clearExpandedDesc))
                     (hch.map (fun l => l.map (setKid target false))), true)
      else
        let rc := setExpandedGoO target flag ch
        let rh := setExpandedGoO target flag hch
        (.node i e rc.1 rh.1, rc.2 || rh.2)

def setExpandedGoO (target : Nat) (flag : Bool) :
    Option (List HNode) → Option (List HNode) × Bool
  | none => (none, false)
  | some l =>
      let r := setExpandedGoL target flag l
      (some r.1, r.2)

def setExpandedGoL (target : Nat) (flag : Bool) : List HNode → List HNode × Bool
  | [] => ([], false)
  | c :: cs =>
      let a := setExpandedGo target flag c
      let b := setExpandedGoL target flag cs
      (a.1 :: b.1, a.2 || b.2)
end

/-- `setExpanded`: the root has no parent (the `node.parent || { descendants:
() => [] }` fallback of line 2280), so a root match only sets the root's own
flag; otherwise the parent is located and handled by `setExpandedGo`. -/
def setExpandedH (target : Nat) (flag : Bool) (t : HNode) : HNode :=
  if t.idOf = target then setRootExpanded flag t
  else (setExpandedGo target flag t).1

mutual
/-- The subtree rooted at the target's parent (the node whose direct children
contain the target id), when it exists. -/
def parentOfH (target : Nat) : HNode → Option HNode
  | .node i e ch hch =>
      if target ∈ directKidIds (.node i e ch hch) then some (.node i e ch hch)
      else
        match parentOfHO target ch with
        | some s => some s
        | none => parentOfHO target hch

def parentOfHO (target : Nat) : Option (List HNode) → Option HNode
  | none => none
  | some l => parentOfHL target l

def parentOfHL (target : Nat) : List HNode → Option HNode
  | [] => none
  | c :: cs =>
      match parentOfH target c with
      | some s => some s
      | none => parentOfHL target cs
end

mutual
theorem datasH_fst : ∀ n : HNode, (datasH n).map Prod.fst = idsH n
  | .node i e ch hch => by
      rw [datasH, idsH, List.map_cons, List.map_append, datasHO_fst ch, datasHO_fst hch]

theorem datasHO_fst : ∀ o : Option (List HNode), (datasHO o).map Prod.fst = idsHO o
  | none => rfl
  | some l => datasHL_fst l

theorem datasHL_fst : ∀ l : List HNode, (datasHL l).map Prod.fst = idsHL l
  | [] => rfl
  | c :: cs => by rw [datasHL, idsHL, List.map_append, datasH_fst c, datasHL_fst cs]
end

theorem mem_datasH_ids {n : HNode} {r : Nat × Bool} (hr : r ∈ datasH n) : r.1 ∈ idsH n := by
  rw [← datasH_fst]; exact List.mem_map_of_mem _ hr

theorem mem_datasHO_ids {o : Option (List HNode)} {r : Nat × Bool} (hr : r ∈ datasHO o) :
    r.1 ∈ idsHO o := by
  rw [← datasHO_fst]; exact List.mem_map_of_mem _ hr

theorem mem_datasHL_ids {l : List HNode} {r : Nat × Bool} (hr : r ∈ datasHL l) :
    r.1 ∈ idsHL l := by
  rw [← datasHL_fst]; exact List.mem_map_of_mem _ hr

mutual
theorem descIdsH_sub : ∀ (n : HNode) (x : Nat), x ∈ descIdsH n → x ∈ idsH n
  | .node i e ch hch, x, hx => by
      rw [descIdsH, List.mem_cons] at hx
      rw [idsH, List.mem_cons]
      rcases hx with rfl | h2
      · exact Or.inl rfl
      · exact Or.inr (List.mem_append_left _ (descIdsHO_sub ch x h2))

theorem descIdsHO_sub : ∀ (o : Option (List HNode)) (x : Nat), x ∈ descIdsHO o → x ∈ idsHO o
  | some l, x, hx => descIdsHL_sub l x hx
  | none, x, hx => by simp [descIdsHO] at hx

theorem descIdsHL_sub : ∀ (l : List HNode) (x : Nat), x ∈ descIdsHL l → x ∈ idsHL l
  | c :: cs, x, hx => by
      rw [descIdsHL, List.mem_append] at hx
      rw [idsHL, List.mem_append]
      rcases hx with h | h
      · exact Or.inl (descIdsH_sub c x h)
      · exact Or.inr (descIdsHL_sub cs x h)
  | [], x, hx => by simp [descIdsHL] at hx

end

theorem mem_member_idsHL : ∀ (l : List HNode) (c : HNode) (x : Nat),
    c ∈ l → x ∈ idsH c → x ∈ idsHL l
  | c0 :: cs, c, x, hc, hx => by
      rw [idsHL, List.mem_append]
      rcases List.mem_cons.mp hc with rfl | htail
      · exact Or.inl hx
      · exact Or.inr (mem_member_idsHL cs c x htail hx)

theorem idOf_mem_idsH (c : HNode) : c.idOf ∈ idsH c := by
  cases c with
  | node i e ch hch => rw [idsH]; exact List.mem_cons_self _ _

theorem idOf_mem_descIdsH (c : HNode) : c.idOf ∈ descIdsH c := by
  cases c with
  | node i e ch hch => rw [descIdsH]; exact List.mem_cons_self _ _

theorem root_mem_descIdsHL (l : List HNode) (c : HNode) (hc : c ∈ l) :
    c.idOf ∈ descIdsHL l := by
  induction l with
  | nil => simp at hc
  | cons c0 cs ih =>
      rw [descIdsHL, List.mem_append]
      rcases List.mem_cons.mp hc with rfl | htail
      · exact Or.inl (idOf_mem_descIdsH c)
      · exact Or.inr (ih htail)

theorem directKid_mem_tail (n : HNode) (x : Nat) (hx : x ∈ directKidIds n) :
    x ∈ idsHO n.chOf ++ idsHO n.hchOf := by
  cases n with
  | node i e ch hch =>
      rw [directKidIds, List.map_append, List.mem_append] at hx
      rw [HNode.chOf, HNode.hchOf, List.mem_append]
      rcases hx with h | h
      · obtain ⟨c, hc, rfl⟩ := List.mem_map.mp h
        left
        cases ch with
        | none => cases hc
        | some l => exact mem_member_idsHL l c _ hc (idOf_mem_idsH c)
      · obtain ⟨c, hc, rfl⟩ := List.mem_map.mp h
        right
        cases hch with
        | none => cases hc
        | some l => exact mem_member_idsHL l c _ hc (idOf_mem_idsH c)

theorem descIdsHO_chOf_sub (s : HNode) (x : Nat) (hx : x ∈ descIdsHO s.chOf) :
    x ∈ idsHO s.chOf ++ idsHO s.hchOf := by
  exact List.mem_append_left _ (descIdsHO_sub _ x hx)

theorem tail_mem_idsH (n : HNode) (x : Nat)
    (hx : x ∈ idsHO n.chOf ++ idsHO n.hchOf) : x ∈ idsH n := by
  cases n with
  | node i e ch hch =>
      rw [idsH, List.mem_cons]
      exact Or.inr hx

mutual
theorem parentOfH_sub : ∀ (target : Nat) (n s : HNode), parentOfH target n = some s →
    target ∈ idsH s ∧ ∀ x ∈ idsH s, x ∈ idsH n
  | target, .node i e ch hch, s, hp => by
      rw [parentOfH] at hp
      by_cases hd : target ∈ directKidIds (.node i e ch hch)
      · rw [if_pos hd, Option.some_inj] at hp
        subst hp
        exact ⟨tail_mem_idsH _ target (directKid_mem_tail _ target hd), fun x hx => hx⟩
      · rw [if_neg hd] at hp
        cases hco : parentOfHO target ch with
        | some s2 =>
            rw [hco, Option.some_inj] at hp
            subst hp
            obtain ⟨h1, h2⟩ := parentOfHO_sub target ch s2 hco
            exact ⟨h1, fun x hx => tail_mem_idsH (.node i e ch hch) x
              (List.mem_append_left _ (h2 x hx))⟩
        | none =>
            rw [hco] at hp
            obtain ⟨h1, h2⟩ := parentOfHO_sub target hch s hp
            exact ⟨h1, fun x hx => tail_mem_idsH (.node i e ch hch) x
              (List.mem_append_right _ (h2 x hx))⟩

theorem parentOfHO_sub : ∀ (target : Nat) (o : Option (List HNode)) (s : HNode),
    parentOfHO target o = some s → target ∈ idsH s ∧ ∀ x ∈ idsH s, x ∈ idsHO o
  | target, none, s, hp => by rw [parentOfHO] at hp; exact absurd hp (by simp)
  | target, some l, s, hp => parentOfHL_sub target l s hp

theorem parentOfHL_sub : ∀ (target : Nat) (l : List HNode) (s : HNode),
    parentOfHL target l = some s → target ∈ idsH s ∧ ∀ x ∈ idsH s, x ∈ idsHL l
  | target, [], s, hp => by rw [parentOfHL] at hp; exact absurd hp (by simp)
  | target, c :: cs, s, hp => by
      rw [parentOfHL] at hp
      cases hc : parentOfH target c with
      | some s2 =>
          rw [hc, Option.some_inj] at hp
          have h := parentOfH_sub target c s2 hc
          rw [hp] at h
          exact ⟨h.1, fun x hx => by
            rw [idsHL, List.mem_append]; exact Or.inl (h.2 x hx)⟩
      | none =>
          rw [hc] at hp
          obtain ⟨h1, h2⟩ := parentOfHL_sub target cs s hp
          exact ⟨h1, fun x hx => by
            rw [idsHL, List.mem_append]; exact Or.inr (h2 x hx)⟩
end

mutual
theorem setExpandedGo_nf : ∀ (target : Nat) (flag : Bool) (n : HNode),
    parentOfH target n = none → setExpandedGo target flag n = (n, false)
  | target, flag, .node i e ch hch, hp => by
      rw [parentOfH] at hp
      by_cases hd : target ∈ directKidIds (.node i e ch hch)
      · rw [if_pos hd] at hp; exact absurd hp (by simp)
      · rw [if_neg hd] at hp
        cases hco : parentOfHO target ch with
        | some s2 => rw [hco] at hp; exact absurd hp (by simp)
        | none =>
            rw [hco] at hp
            rw [setExpandedGo, if_neg hd, setExpandedGoO_nf target flag ch hco,
              setExpandedGoO_nf target flag hch hp]
            rfl

theorem setExpandedGoO_nf : ∀ (target : Nat) (flag : Bool) (o : Option (List HNode)),
    parentOfHO target o = none → setExpandedGoO target flag o = (o, false)
  | _, _, none, _ => rfl
  | target, flag, some l, hp => by
      rw [parentOfHO] at hp
      rw [setExpandedGoO, setExpandedGoL_nf target flag l hp]

theorem setExpandedGoL_nf : ∀ (target : Nat) (flag : Bool) (l : List HNode),
    parentOfHL target l = none → setExpandedGoL target flag l = (l, false)
  | _, _, [], _ => rfl
  | target, flag, c :: cs, hp => by
      rw [parentOfHL] at hp
      cases hc : parentOfH target c with
      | some s2 => rw [hc] at hp; exact absurd hp (by simp)
      | none =>
          rw [hc] at hp
          rw [setExpandedGoL, setExpandedGo_nf target flag c hc,
            setExpandedGoL_nf target flag cs hp]
          rfl

end

theorem nodup_member_idsH : ∀ (l : List HNode), (idsHL l).Nodup →
    ∀ c ∈ l, (idsH c).Nodup
  | c0 :: cs, hnd, c, hc => by
      rw [idsHL, List.nodup_append] at hnd
      rcases List.mem_cons.mp hc with rfl | htail
      · exact hnd.1
      · exact nodup_member_idsH cs hnd.2.1 c htail

theorem roots_unique : ∀ (l : List HNode), (idsHL l).Nodup →
    ∀ x, x ∈ l.map HNode.idOf → ∀ c ∈ l, x ∈ idsH c → x = c.idOf
  | c0 :: cs, hnd, x, hx, c, hc, hxc => by
      have hnd2 := hnd
      rw [idsHL, List.nodup_append] at hnd2
      rw [List.map_cons] at hx
      rcases List.mem_cons.mp hx with hxeq | hxtail
      · rcases List.mem_cons.mp hc with hceq | hctail
        · rw [hxeq, hceq]
        · rw [hxeq] at hxc
          exact ((hnd2.2.2 (idOf_mem_idsH c0))
            (mem_member_idsHL cs c _ hctail hxc)).elim
      · rcases List.mem_cons.mp hc with hceq | hctail
        · obtain ⟨c2, hc2, hx2⟩ := List.mem_map.mp hxtail
          rw [hceq] at hxc
          have hxcs : x ∈ idsHL cs := by
            rw [← hx2]
            exact mem_member_idsHL cs c2 _ hc2 (idOf_mem_idsH c2)
          exact ((hnd2.2.2 hxc) hxcs).elim
        · exact roots_unique cs hnd2.2.1 x hxtail c hctail hxc

theorem map_flag_id (P : Nat → Prop) [DecidablePred P] (b : Bool)
    (l : List (Nat × Bool)) (h : ∀ r ∈ l, ¬ P r.1) :
    l.map (fun r => if P r.1 then (r.1, b) else r) = l := by
  rw [show l = l.map id from (List.map_id l).symm]
  rw [List.map_map]
  apply List.map_congr_left
  intro r hr
  simp [h r (by simpa using hr)]

theorem map_flag_congr (P Q : Nat → Prop) [DecidablePred P] [DecidablePred Q] (b : Bool)
    (l : List (Nat × Bool)) (h : ∀ r ∈ l, P r.1 ↔ Q r.1) :
    l.map (fun r => if P r.1 then (r.1, b) else r) =
      l.map (fun r => if Q r.1 then (r.1, b) else r) := by
  apply List.map_congr_left
  intro r hr
  by_cases hp : P r.1
  · rw [if_pos hp, if_pos ((h r hr).mp hp)]
  · rw [if_neg hp, if_neg (fun hq => hp ((h r hr).mpr hq))]

theorem setRootExpanded_datas (target : Nat) (b : Bool) (c : HNode)
    (hnd : (idsH c).Nodup) (ht : c.idOf = target) :
    datasH (setRootExpanded b c) =
      (datasH c).map (fun r => if r.1 = target then (r.1, b) else r) := by
  cases c with
  | node i e ch hch =>
      rw [HNode.idOf] at ht
      subst ht
      rw [idsH, List.nodup_cons] at hnd
      rw [setRootExpanded, datasH, datasH, List.map_cons, if_pos rfl]
      congr 1
      symm
      apply map_flag_id (fun x => x = i) b
      intro r hr hri
      apply hnd.1
      rw [← hri]
      rcases List.mem_append.mp hr with h | h
      · exact List.mem_append_left _ (mem_datasHO_ids h)
      · exact List.mem_append_right _ (mem_datasHO_ids h)

theorem clearExpandedDescL_eq_map : ∀ l : List HNode,
    clearExpandedDescL l = l.map clearExpandedDesc
  | [] => rfl
  | c :: cs => by rw [clearExpandedDescL, List.map_cons, clearExpandedDescL_eq_map cs]

mutual
theorem clearExpandedDesc_datas : ∀ n : HNode, (idsH n).Nodup →
    datasH (clearExpandedDesc n) =
      (datasH n).map (fun r => if r.1 ∈ descIdsH n then (r.1, false) else r)
  | .node i e ch hch, hnd => by
      rw [idsH, List.nodup_cons, List.nodup_append] at hnd
      rw [clearExpandedDesc, datasH, datasH, List.map_cons,
        if_pos (show i ∈ descIdsH (.node i e ch hch) by
          rw [descIdsH]; exact List.mem_cons_self _ _)]
      congr 1
      rw [List.map_append]
      congr 1
      · rw [clearExpandedDescO_datas ch hnd.2.1]
        apply map_flag_congr
        intro r hr
        have hid : r.1 ∈ idsHO ch := mem_datasHO_ids hr
        rw [descIdsH, List.mem_cons]
        constructor
        · intro h; exact Or.inr h
        · rintro (h | h)
          · exact absurd (List.mem_append_left _ hid) (h ▸ hnd.1)
          · exact h
      · symm
        apply map_flag_id (fun x => x ∈ descIdsH (HNode.node i e ch hch)) false
        intro r hr hmem
        have hid : r.1 ∈ idsHO hch := mem_datasHO_ids hr
        rw [descIdsH, List.mem_cons] at hmem
        rcases hmem with h | h
        · exact hnd.1 (h ▸ List.mem_append_right _ hid)
        · exact hnd.2.2.2 (descIdsHO_sub ch r.1 h) hid

theorem clearExpandedDescO_datas : ∀ o : Option (List HNode), (idsHO o).Nodup →
    datasHO (clearExpandedDescO o) =
      (datasHO o).map (fun r => if r.1 ∈ descIdsHO o then (r.1, false) else r)
  | none, _ => rfl
  | some l, hnd => by
      rw [clearExpandedDescO, datasHO, datasHO, clearExpandedDescL_datas l hnd]
      rfl

theorem clearExpandedDescL_datas : ∀ l : List HNode, (idsHL l).Nodup →
    datasHL (clearExpandedDescL l) =
      (datasHL l).map (fun r => if r.1 ∈ descIdsHL l then (r.1, false) else r)
  | [], _ => rfl
  | c :: cs, hnd => by
      rw [idsHL, List.nodup_append] at hnd
      rw [clearExpandedDescL, datasHL, datasHL, List.map_append]
      congr 1
      · rw [clearExpandedDesc_datas c hnd.1]
        apply map_flag_congr
        intro r hr
        have hid : r.1 ∈ idsH c := mem_datasH_ids hr
        rw [descIdsHL, List.mem_append]
        constructor
        · intro h; exact Or.inl h
        · rintro (h | h)
          · exact h
          · exact absurd hid (fun hin => hnd.2.2 hin (descIdsHL_sub cs r.1 h))
      · rw [clearExpandedDescL_datas cs hnd.2.1]
        apply map_flag_congr
        intro r hr
        have hid : r.1 ∈ idsHL cs := mem_datasHL_ids hr
        rw [descIdsHL, List.mem_append]
        constructor
        · intro h; exact Or.inr h
        · rintro (h | h)
          · exact absurd hid (fun hin => hnd.2.2 (descIdsH_sub c r.1 h) hin)
          · exact h
end

theorem setKidL_datas (target : Nat) (b : Bool) : ∀ l : List HNode, (idsHL l).Nodup →
    (∀ c ∈ l, target ∈ idsH c → c.idOf = target) →
    datasHL (l.map (setKid target b)) =
      (datasHL l).map (fun r => if r.1 = target then (r.1, b) else r)
  | [], _, _ => rfl
  | c :: cs, hnd, hside => by
      rw [idsHL, List.nodup_append] at hnd
      rw [List.map_cons, datasHL, datasHL, List.map_append]
      congr 1
      · by_cases hc : c.idOf = target
        · rw [setKid, if_pos hc, setRootExpanded_datas target b c hnd.1 hc]
        · rw [setKid, if_neg hc]
          symm
          apply map_flag_id (fun x => x = target) b
          intro r hr hri
          exact hc (hside c (List.mem_cons_self _ _) (hri ▸ mem_datasH_ids hr))
      · exact setKidL_datas target b cs hnd.2.1
          (fun c2 h2 => hside c2 (List.mem_cons_of_mem _ h2))

theorem idsHO_getD (o : Option (List HNode)) : idsHO o = idsHL (o.getD []) := by
  cases o <;> rfl

theorem descIdsHO_getD (o : Option (List HNode)) : descIdsHO o = descIdsHL (o.getD []) := by
  cases o <;> rfl

theorem psupport_sub (s : HNode) (target : Nat) (ht : target ∈ idsH s) (x : Nat)
    (hx : x = target ∨ x ∈ descIdsHO s.chOf) : x ∈ idsH s := by
  rcases hx with rfl | h
  · exact ht
  · exact tail_mem_idsH s x (descIdsHO_chOf_sub s x h)

theorem clearExpandedDescO_map_datas (o : Option (List HNode)) (hnd : (idsHO o).Nodup) :
    datasHO (o.map (fun l => l.map clearExpandedDesc)) =
      (datasHO o).map (fun r => if r.1 ∈ descIdsHO o then (r.1, false) else r) := by
  cases o with
  | none => rfl
  | some l =>
      rw [Option.map_some', show (l.map clearExpandedDesc) = clearExpandedDescL l from
        (clearExpandedDescL_eq_map l).symm]
      exact clearExpandedDescL_datas l hnd

theorem setKidO_datas (target : Nat) (b : Bool) (o : Option (List HNode))
    (hnd : (idsHO o).Nodup)
    (hside : ∀ c ∈ o.getD [], target ∈ idsH c → c.idOf = target) :
    datasHO (o.map (fun l => l.map (setKid target b))) =
      (datasHO o).map (fun r => if r.1 = target then (r.1, b) else r) := by
  cases o with
  | none => rfl
  | some l =>
      rw [Option.map_some']
      exact setKidL_datas target b l hnd hside

theorem setExpandedGo_found_datas (target : Nat) (i : Nat) (e : Bool)
    (ch hch : Option (List HNode))
    (hnd : (idsH (.node i e ch hch)).Nodup)
    (hd : target ∈ directKidIds (.node i e ch hch)) :
    (datasH (setExpandedGo target false (.node i e ch hch)).1 =
      (datasH (.node i e ch hch)).map
        (fun r => if r.1 = target ∨ r.1 ∈ descIdsHO ch then (r.1, false) else r)) ∧
    (datasH (setExpandedGo target true (.node i e ch hch)).1 =
      (datasH (.node i e ch hch)).map (fun r => if r.1 = target then (r.1, true) else r)) := by
  rw [idsH, List.nodup_cons, List.nodup_append] at hnd
  have hni := hnd.1
  have hndc := hnd.2.1
  have hndh := hnd.2.2.1
  have hdisj := hnd.2.2.2
  have htail := directKid_mem_tail (.node i e ch hch) target hd
  simp only [HNode.chOf, HNode.hchOf] at htail
  have hit : ¬ (i = target) := fun hin => hni (hin ▸ htail)
  have hroots : target ∈ (ch.getD []).map HNode.idOf ∨
      target ∈ (hch.getD []).map HNode.idOf := by
    rw [directKidIds, List.map_append, List.mem_append] at hd
    simpa [HNode.chOf, HNode.hchOf] using hd
  have hchtgt : target ∈ (ch.getD []).map HNode.idOf → target ∈ idsHO ch := by
    intro h
    obtain ⟨c2, hc2, hx2⟩ := List.mem_map.mp h
    rw [idsHO_getD, ← hx2]
    exact mem_member_idsHL _ c2 _ hc2 (idOf_mem_idsH c2)
  have hhchtgt : target ∈ (hch.getD []).map HNode.idOf → target ∈ idsHO hch := by
    intro h
    obtain ⟨c2, hc2, hx2⟩ := List.mem_map.mp h
    rw [idsHO_getD, ← hx2]
    exact mem_member_idsHL _ c2 _ hc2 (idOf_mem_idsH c2)
  have hsideCh : ∀ c ∈ ch.getD [], target ∈ idsH c → c.idOf = target := by
    rcases hroots with h | h
    · intro c hc hmem
      exact (roots_unique (ch.getD []) (by rw [← idsHO_getD]; exact hndc)
        target h c hc hmem).symm
    · intro c hc hmem
      have h1 : target ∈ idsHO ch := by
        rw [idsHO_getD]; exact mem_member_idsHL _ c _ hc hmem
      exact absurd (hhchtgt h) (fun _ => hdisj h1 (hhchtgt h))
  have hsideHch : ∀ c ∈ hch.getD [], target ∈ idsH c → c.idOf = target := by
    rcases hroots with h | h
    · intro c hc hmem
      have h1 : target ∈ idsHO hch := by
        rw [idsHO_getD]; exact mem_member_idsHL _ c _ hc hmem
      exact absurd h1 (hdisj (hchtgt h))
    · intro c hc hmem
      exact (roots_unique (hch.getD []) (by rw [← idsHO_getD]; exact hndh)
        target h c hc hmem).symm
  constructor
  · rw [setExpandedGo, if_pos hd, if_neg Bool.false_ne_true]
    rw [datasH, datasH, List.map_cons, List.map_append]
    congr 1
    · rw [if_neg]
      rintro (h | h)
      · exact hit h
      · exact hni (List.mem_append_left _ (descIdsHO_sub ch i h))
    congr 1
    · rw [clearExpandedDescO_map_datas ch hndc]
      apply map_flag_congr (fun x => x ∈ descIdsHO ch)
        (fun x => x = target ∨ x ∈ descIdsHO ch) false (datasHO ch)
      intro r hr
      have hid := mem_datasHO_ids hr
      constructor
      · intro h
        exact Or.inr h
      · rintro (h | h)
        · rcases hroots with hx | hx
          · obtain ⟨c2, hc2, hx2⟩ := List.mem_map.mp hx
            rw [h, ← hx2, descIdsHO_getD]
            exact root_mem_descIdsHL _ c2 hc2
          · exact absurd (hhchtgt hx) (fun _ => hdisj (h ▸ hid) (hhchtgt hx))
        · exact h
    · rw [setKidO_datas target false hch hndh hsideHch]
      apply map_flag_congr (fun x => x = target)
        (fun x => x = target ∨ x ∈ descIdsHO ch) false (datasHO hch)
      intro r hr
      have hid := mem_datasHO_ids hr
      constructor
      · intro h
        exact Or.inl h
      · rintro (h | h)
        · exact h
        · exact ((hdisj (descIdsHO_sub ch r.1 h)) hid).elim
  · rw [setExpandedGo, if_pos hd, if_pos rfl]
    rw [datasH, datasH, List.map_cons, List.map_append]
    congr 1
    · rw [if_neg hit]
    congr 1
    · exact setKidO_datas target true ch hndc hsideCh
    · exact setKidO_datas target true hch hndh hsideHch

mutual
theorem setExpandedGo_datas : ∀ (target : Nat) (n s : HNode),
    (idsH n).Nodup → parentOfH target n = some s →
    (datasH (setExpandedGo target false n).1 =
      (datasH n).map (fun r =>
        if r.1 = target ∨ r.1 ∈ descIdsHO s.chOf then (r.1, false) else r)) ∧
    (datasH (setExpandedGo target true n).1 =
      (datasH n).map (fun r => if r.1 = target then (r.1, true) else r))
  | target, .node i e ch hch, s, hnd, hp => by
      rw [parentOfH] at hp
      by_cases hd : target ∈ directKidIds (.node i e ch hch)
      · rw [if_pos hd, Option.some_inj] at hp
        subst hp
        simp only [HNode.chOf]
        exact setExpandedGo_found_datas target i e ch hch hnd hd
      · rw [if_neg hd] at hp
        rw [idsH, List.nodup_cons, List.nodup_append] at hnd
        cases hco : parentOfHO target ch with
        | some s2 =>
            rw [hco] at hp
            have hs : s2 = s := Option.some_inj.mp hp
            subst hs
            have hsub := parentOfHO_sub target ch s2 hco
            have hhnone : parentOfHO target hch = none := by
              cases hh : parentOfHO target hch with
              | none => rfl
              | some s3 =>
                  have h3 := parentOfHO_sub target hch s3 hh
                  exact ((hnd.2.2.2 (hsub.2 target hsub.1)) (h3.2 target h3.1)).elim
            have hIH := setExpandedGoO_datas target ch s2 hnd.2.1 hco
            have hnfF : (setExpandedGoO target false hch).1 = hch := by
              rw [setExpandedGoO_nf target false hch hhnone]
            have hnfT : (setExpandedGoO target true hch).1 = hch := by
              rw [setExpandedGoO_nf target true hch hhnone]
            constructor
            · rw [setExpandedGo, if_neg hd]
              show datasH (HNode.node i e (setExpandedGoO target false ch).1
                  (setExpandedGoO target false hch).1) = _
              rw [hnfF, datasH, datasH, List.map_cons, List.map_append]
              congr 1
              · rw [if_neg]
                intro hP
                exact hnd.1 (List.mem_append_left _
                  (hsub.2 i (psupport_sub s2 target hsub.1 i hP)))
              congr 1
              · exact hIH.1
              · symm
                apply map_flag_id (fun x => x = target ∨ x ∈ descIdsHO s2.chOf) false
                intro r hr hP
                exact (hnd.2.2.2 (hsub.2 r.1 (psupport_sub s2 target hsub.1 r.1 hP)))
                  (mem_datasHO_ids hr)
            · rw [setExpandedGo, if_neg hd]
              show datasH (HNode.node i e (setExpandedGoO target true ch).1
                  (setExpandedGoO target true hch).1) = _
              rw [hnfT, datasH, datasH, List.map_cons, List.map_append]
              congr 1
              · rw [if_neg]
                intro hP
                have hP2 : i = target := hP
                exact hnd.1 (List.mem_append_left _ (hsub.2 i (hP2 ▸ hsub.1)))
              congr 1
              · exact hIH.2
              · symm
                apply map_flag_id (fun x => x = target) true
                intro r hr hP
                exact (hnd.2.2.2 (hsub.2 r.1 (hP ▸ hsub.1))) (mem_datasHO_ids hr)
        | none =>
            rw [hco] at hp
            have hp2 : parentOfHO target hch = some s := hp
            have hsub := parentOfHO_sub target hch s hp2
            have hIH := setExpandedGoO_datas target hch s hnd.2.2.1 hp2
            have hnfF : (setExpandedGoO target false ch).1 = ch := by
              rw [setExpandedGoO_nf target false ch hco]
            have hnfT : (setExpandedGoO target true ch).1 = ch := by
              rw [setExpandedGoO_nf target true ch hco]
            constructor
            · rw [setExpandedGo, if_neg hd]
              show datasH (HNode.node i e (setExpandedGoO target false ch).1
                  (setExpandedGoO target false hch).1) = _
              rw [hnfF, datasH, datasH, List.map_cons, List.map_append]
              congr 1
              · rw [if_neg]
                intro hP
                exact hnd.1 (List.mem_append_right _
                  (hsub.2 i (psupport_sub s target hsub.1 i hP)))
              congr 1
              · symm
                apply map_flag_id (fun x => x = target ∨ x ∈ descIdsHO s.chOf) false
                intro r hr hP
                exact (hnd.2.2.2 (mem_datasHO_ids hr))
                  (hsub.2 r.1 (psupport_sub s target hsub.1 r.1 hP))
              · exact hIH.1
            · rw [setExpandedGo, if_neg hd]
              show datasH (HNode.node i e (setExpandedGoO target true ch).1
                  (setExpandedGoO target true hch).1) = _
              rw [hnfT, datasH, datasH, List.map_cons, List.map_append]
              congr 1
              · rw [if_neg]
                intro hP
                have hP2 : i = target := hP
                exact hnd.1 (List.mem_append_right _ (hsub.2 i (hP2 ▸ hsub.1)))
              congr 1
              · symm
                apply map_flag_id (fun x => x = target) true
                intro r hr hP
                exact (hnd.2.2.2 (mem_datasHO_ids hr)) (hsub.2 r.1 (hP ▸ hsub.1))
              · exact hIH.2

theorem setExpandedGoO_datas : ∀ (target : Nat) (o : Option (List HNode)) (s : HNode),
    (idsHO o).Nodup → parentOfHO target o = some s →
    (datasHO (setExpandedGoO target false o).1 =
      (datasHO o).map (fun r =>
        if r.1 = target ∨ r.1 ∈ descIdsHO s.chOf then (r.1, false) else r)) ∧
    (datasHO (setExpandedGoO target true o).1 =
      (datasHO o).map (fun r => if r.1 = target then (r.1, true) else r))
  | target, none, s, _, hp => by rw [parentOfHO] at hp; exact absurd hp (by simp)
  | target, some l, s, hnd, hp => by
      rw [parentOfHO] at hp
      exact setExpandedGoL_datas target l s hnd hp

theorem setExpandedGoL_datas : ∀ (target : Nat) (l : List HNode) (s : HNode),
    (idsHL l).Nodup → parentOfHL target l = some s →
    (datasHL (setExpandedGoL target false l).1 =
      (datasHL l).map (fun r =>
        if r.1 = target ∨ r.1 ∈ descIdsHO s.chOf then (r.1, false) else r)) ∧
    (datasHL (setExpandedGoL target true l).1 =
      (datasHL l).map (fun r => if r.1 = target then (r.1, true) else r))
  | target, [], s, _, hp => by rw [parentOfHL] at hp; exact absurd hp (by simp)
  | target, c :: cs, s, hnd, hp => by
      rw [parentOfHL] at hp
      rw [idsHL, List.nodup_append] at hnd
      cases hc : parentOfH target c with
      | some s2 =>
          rw [hc] at hp
          have hs : s2 = s := Option.some_inj.mp hp
          subst hs
          have hsub := parentOfH_sub target c s2 hc
          have hcsnone : parentOfHL target cs = none := by
            cases hh : parentOfHL target cs with
            | none => rfl
            | some s3 =>
                have h3 := parentOfHL_sub target cs s3 hh
                exact ((hnd.2.2 (hsub.2 target hsub.1)) (h3.2 target h3.1)).elim
          have hIH := setExpandedGo_datas target c s2 hnd.1 hc
          have hnfF : (setExpandedGoL target false cs).1 = cs := by
            rw [setExpandedGoL_nf target false cs hcsnone]
          have hnfT : (setExpandedGoL target true cs).1 = cs := by
            rw [setExpandedGoL_nf target true cs hcsnone]
          constructor
          · show datasHL ((setExpandedGo target false c).1 ::
                (setExpandedGoL target false cs).1) = _
            rw [hnfF, datasHL, datasHL, List.map_append]
            congr 1
            · exact hIH.1
            · symm
              apply map_flag_id (fun x => x = target ∨ x ∈ descIdsHO s2.chOf) false
              intro r hr hP
              exact (hnd.2.2 (hsub.2 r.1 (psupport_sub s2 target hsub.1 r.1 hP)))
                (mem_datasHL_ids hr)
          · show datasHL ((setExpandedGo target true c).1 ::
                (setExpandedGoL target true cs).1) = _
            rw [hnfT, datasHL, datasHL, List.map_append]
            congr 1
            · exact hIH.2
            · symm
              apply map_flag_id (fun x => x = target) true
              intro r hr hP
              exact (hnd.2.2 (hsub.2 r.1 (hP ▸ hsub.1))) (mem_datasHL_ids hr)
      | none =>
          rw [hc] at hp
          have hp2 : parentOfHL target cs = some s := hp
          have hsub := parentOfHL_sub target cs s hp2
          have hIH := setExpandedGoL_datas target cs s hnd.2.1 hp2
          have hnfF : (setExpandedGo target false c).1 = c := by
            rw [setExpandedGo_nf target false c hc]
          have hnfT : (setExpandedGo target true c).1 = c := by
            rw [setExpandedGo_nf target true c hc]
          constructor
          · show datasHL ((setExpandedGo target false c).1 ::
                (setExpandedGoL target false cs).1) = _
            rw [hnfF, datasHL, datasHL, List.map_append]
            congr 1
            · symm
              apply map_flag_id (fun x => x = target ∨ x ∈ descIdsHO s.chOf) false
              intro r hr hP
              exact (hnd.2.2 (mem_datasH_ids hr))
                (hsub.2 r.1 (psupport_sub s target hsub.1 r.1 hP))
            · exact hIH.1
          · show datasHL ((setExpandedGo target true c).1 ::
                (setExpandedGoL target true cs).1) = _
            rw [hnfT, datasHL, datasHL, List.map_append]
            congr 1
            · symm
              apply map_flag_id (fun x => x = target) true
              intro r hr hP
              exact (hnd.2.2 (mem_datasH_ids hr)) (hsub.2 r.1 (hP ▸ hsub.1))
            · exact hIH.2
end

theorem parentOfH_target_tail : ∀ (target : Nat) (n s : HNode),
    parentOfH target n = some s → target ∈ idsHO n.chOf ++ idsHO n.hchOf
  | target, .node i e ch hch, s, hp => by
      rw [parentOfH] at hp
      by_cases hd : target ∈ directKidIds (.node i e ch hch)
      · exact directKid_mem_tail _ target hd
      · rw [if_neg hd] at hp
        simp only [HNode.chOf, HNode.hchOf]
        cases hco : parentOfHO target ch with
        | some s2 =>
            rw [hco] at hp
            have hsub := parentOfHO_sub target ch s2 hco
            exact List.mem_append_left _ (hsub.2 target hsub.1)
        | none =>
            rw [hco] at hp
            have hsub := parentOfHO_sub target hch s hp
            exact List.mem_append_right _ (hsub.2 target hsub.1)

/-- C10: for an id matching a node, `setExpanded(id, false)` clears
`_expanded` on the node itself and on every descendant of the node's parent
(`parent.descendants()` minus the parent: all siblings and their
descendants), leaving every other record unchanged; `setExpanded(id, true)`
sets `_expanded` on the matched node only; and for the root (no parent),
only the root's own flag changes. -/
theorem c10_setExpanded_scope (t : HNode) (target : Nat) (hnd : (idsH t).Nodup) :
    (∀ s, parentOfH target t = some s →
      datasH (setExpandedH target false t) =
        (datasH t).map (fun r =>
          if r.1 = target ∨ r.1 ∈ descIdsHO s.chOf then (r.1, false) else r) ∧
      datasH (setExpandedH target true t) =
        (datasH t).map (fun r => if r.1 = target then (r.1, true) else r)) ∧
    (t.idOf = target →
      datasH (setExpandedH target false t) =
        (datasH t).map (fun r => if r.1 = target then (r.1, false) else r) ∧
      datasH (setExpandedH target true t) =
        (datasH t).map (fun r => if r.1 = target then (r.1, true) else r)) := by
  constructor
  · intro s hp
    have htail := parentOfH_target_tail target t s hp
    have hne : ¬ (t.idOf = target) := by
      intro hroot
      cases t with
      | node i e ch hch =>
          rw [HNode.idOf] at hroot
          rw [idsH, List.nodup_cons] at hnd
          simp only [HNode.chOf, HNode.hchOf] at htail
          exact hnd.1 (hroot ▸ htail)
    rw [setExpandedH, if_neg hne, setExpandedH, if_neg hne]
    exact setExpandedGo_datas target t s hnd hp
  · intro hroot
    rw [setExpandedH, if_pos hroot, setExpandedH, if_pos hroot]
    exact ⟨setRootExpanded_datas target false t hnd hroot,
      setRootExpanded_datas target true t hnd hroot⟩

/-- A sample hierarchy for the `setExpanded` witness: node 1 (with expanded
child 3) and node 2 (with a collapsed child 4) under root 0. -/
def exH : HNode :=
  HNode.node 0 true
    (some [HNode.node 1 true (some [HNode.node 3 true none none]) none,
           HNode.node 2 true none (some [HNode.node 4 true none none])]) none

/-- Witness for `c10_setExpanded_scope`: collapsing node 1 clears node 1 and
every children-reachable descendant of the root, but not the collapsed
record 4. -/
theorem c10_setExpanded_scope_witness :
    (idsH exH).Nodup ∧
    datasH (setExpandedH 1 false exH) =
      (datasH exH).map (fun r =>
        if r.1 = 1 ∨ r.1 ∈ descIdsHO exH.chOf then (r.1, false) else r) :=
  ⟨by decide, ((c10_setExpanded_scope exH 1 (by decide)).1 exH (by rfl)).1⟩
